import Mathlib

/-!
Verification of the grouped LRU cache engine (src/lib/lru-cache.js).

The JavaScript source is shallowly embedded: cache items are mutable JS
objects shared between the recency list and the group index, so the model
uses an explicit heap (`items : List (Nat × Item)`) keyed by allocation id;
object identity (`===`) is id equality.  JS objects used as string-keyed
maps (`groups`, a group's id table) are modelled as insertion-ordered
association lists.  Fallible code paths (the `"SeriesOverflow"` throw and
the `TypeError` raised by `delete group[key.id]` when `group` is
`undefined`) are modelled with `Except Unit`.  The deferred
`process.nextTick` bodies of `remove` and `prune` are modelled as atomic
steps that run against the state current when the pass executes.
-/

set_option maxHeartbeats 1000000

namespace SemoLRU

/-- JS runtime values, as far as the cache observes them (`!!v` truthiness
and identity of stored data). -/
inductive JSValue where
  | undef
  | null
  | bool (b : Bool)
  | num (n : Int)
  | str (s : String)
  | obj (oid : Nat)
deriving DecidableEq, Repr

/-- JS truthiness: `!!v`. -/
def JSValue.truthy : JSValue → Bool
  | .undef => false
  | .null => false
  | .bool b => b
  | .num n => n != 0
  | .str s => s != ""
  | .obj _ => true

/-- A cache key `{ id, group }` as produced by `createKey`.  `id = none`
models the id being left `undefined` (the one-argument form of `key`).
Numeric ids are modelled by `some n`; as property names `none` and `some n`
are distinct, matching the string coercion `"undefined"` vs `"<n>"`. -/
structure JKey where
  id : Option Nat
  group : Nat
deriving DecidableEq, Repr

/-- JS truthiness of `key.id` (`undefined` and `0` are falsy). -/
def idTruthy : Option Nat → Bool
  | none => false
  | some n => n != 0

/-- A cache item object: `{ key, data, size, sno, time }`.  `delete
item.data` is modelled by setting `data := .undef`, which is what a
subsequent property read observes. -/
structure Item where
  key : JKey
  data : JSValue
  size : Int
  sno : Int
  time : Int
deriving DecidableEq, Repr

instance : Inhabited Item := ⟨⟨⟨none, 0⟩, .undef, 0, 0, 0⟩⟩

/-! ### Insertion-ordered association lists (JS objects as maps) -/

/-- Property read `m[k]`. -/
def alookup {α β : Type} [DecidableEq α] (k : α) : List (α × β) → Option β
  | [] => none
  | (k', v) :: rest => if k' = k then some v else alookup k rest

/-- Property write `m[k] = v`: updates in place, or appends a new binding
(JS objects keep insertion order for new string keys). -/
def ainsert {α β : Type} [DecidableEq α] (k : α) (v : β) : List (α × β) → List (α × β)
  | [] => [(k, v)]
  | (k', v') :: rest => if k' = k then (k, v) :: rest else (k', v') :: ainsert k v rest

/-- Property removal `delete m[k]`. -/
def adelete {α β : Type} [DecidableEq α] (k : α) : List (α × β) → List (α × β)
  | [] => []
  | (k', v') :: rest => if k' = k then adelete k rest else (k', v') :: adelete k rest

/-- `Object.keys m`. -/
def keysOf {α β : Type} (m : List (α × β)) : List α := m.map Prod.fst

/-- One group's table: `key.id ↦ item id`. -/
abbrev GroupTable := List (Option Nat × Nat)

/-- The group index: `key.group ↦ table`. -/
abbrev Groups := List (Nat × GroupTable)

/-- Read an item object out of the heap. -/
def itemOf (items : List (Nat × Item)) (i : Nat) : Item :=
  (alookup i items).getD default

/-- The whole cache state: heap of item objects, allocation counter, group
index, recency list (`cache`, most recently used first), running total
size, and the `NumberSeries` state (`sN` is the counter `n`, the series
range is `[sStart, sEnd)` with overflow thrown when `n == sEnd`). -/
structure CState where
  items : List (Nat × Item)
  nextId : Nat
  groups : Groups
  cache : List Nat
  totalSize : Int
  sN : Int
  sStart : Int
  sEnd : Int
deriving DecidableEq, Repr

def CState.item (st : CState) (i : Nat) : Item := itemOf st.items i

def CState.setItem (st : CState) (i : Nat) (it : Item) : CState :=
  { st with items := ainsert i it st.items }

/-- The default series range of the source (`seriesStart`/`seriesEnd`). -/
def seriesStart : Int := -9999999999
def seriesEnd : Int := 9999999999

/-- A fresh cache: `new LRUCache(...)` with a given series range
(`testMode range` corresponds to `initState 0 range`). -/
def initState (sStart sEnd : Int) : CState :=
  { items := [], nextId := 0, groups := [], cache := [], totalSize := 0,
    sN := sStart, sStart := sStart, sEnd := sEnd }

/-- `series.next()`: throws `"SeriesOverflow"` when `n == seriesEnd`, else
returns `n` and increments. -/
def seriesNext (n sEnd : Int) : Except Unit (Int × Int) :=
  if n = sEnd then .error () else .ok (n, n + 1)

/-! ### `indexOfItem`: linear scan below 20 entries, binary search above -/

/-- `cache.indexOf(item)`: first index under `===` (heap-id equality), or
`-1` when absent. -/
def jsIndexOf (cache : List Nat) (x : Nat) : Int :=
  match cache with
  | [] => -1
  | y :: rest =>
    if y = x then 0
    else
      let r := jsIndexOf rest x
      if r = -1 then -1 else r + 1

/-- `cache[i]` for a possibly negative or out-of-range index. -/
def jsNth (cache : List Nat) (i : Int) : Option Nat :=
  if i < 0 then none else cache.get? i.toNat

/-- The `while( re > rs )` loop of `indexOfItem`, returning the final value
of `rm`.  `rs`/`re` are the range start/end; on `i.sno > item.sno` the
source runs `rs = ++rm`, else `re = --rm`, so each recursive call passes
the updated `rm` along.  When called from `indexOfItem` the midpoint is
always in range, so the `none` arm of the read is dead code (in JS that
read would fault on `undefined.sno`). -/
def bsLoop (items : List (Nat × Item)) (target : Nat) (cache : List Nat)
    (rs re rm : Int) : Int :=
  if _h : rs < re then
    let rm' := (rs + re) / 2
    match jsNth cache rm' with
    | some i =>
      if i = target then rm'
      else if (itemOf items target).sno < (itemOf items i).sno then
        bsLoop items target cache (rm' + 1) re (rm' + 1)
      else
        bsLoop items target cache rs (rm' - 1) (rm' - 1)
    | none => rm'
  else rm
termination_by (re - rs).toNat
decreasing_by
  all_goals omega

/-- `indexOfItem( cache, item )`: linear `indexOf` below 20 entries, else
the binary search over descending `sno` followed by the final
`cache[rm] === item ? rm : -1` check.  The initial `rm = -1` models the
uninitialised `var rm` (when the loop body never runs, `cache[undefined]`
is `undefined` and the final check yields `-1`, which `jsNth` at `-1`
reproduces; with 20 or more entries the loop always runs). -/
def indexOfItem (items : List (Nat × Item)) (cache : List Nat) (target : Nat) : Int :=
  if cache.length < 20 then jsIndexOf cache target
  else
    let rm := bsLoop items target cache 0 ((cache.length : Int) - 1) (-1)
    if jsNth cache rm = some target then rm else -1

/-! ### `toHead` and series renumbering -/

/-- The renumber loop of `toHead`'s catch block: `for (j = cache.length-1;
j >= 0; j--) cache[j].sno = series.next()`, i.e. a pass over the reversed
cache list; each `next()` may itself overflow, which the source does not
catch. -/
def renumberRev (sEnd : Int) (items : List (Nat × Item)) :
    List Nat → Int → Except Unit (List (Nat × Item) × Int)
  | [], n => .ok (items, n)
  | i :: rest, n =>
    match seriesNext n sEnd with
    | .error _ => .error ()
    | .ok (v, n') =>
      renumberRev sEnd (ainsert i { itemOf items i with sno := v } items) rest n'

/-- The `item.sno = series.next()` step of `toHead` together with its
catch block: on overflow, `series.reset()`, renumber the cache list
tail-to-head, and draw one more number for the item; an overflow inside
the catch block itself is not caught and propagates. -/
def assignSno (st : CState) (target : Nat) : Except Unit CState :=
  match seriesNext st.sN st.sEnd with
  | .ok (v, n') =>
    .ok { st with items := ainsert target { st.item target with sno := v } st.items,
                  sN := n' }
  | .error _ =>
    match renumberRev st.sEnd st.items st.cache.reverse st.sStart with
    | .error _ => .error ()
    | .ok (items', n₁) =>
      match seriesNext n₁ st.sEnd with
      | .error _ => .error ()
      | .ok (v, n₂) =>
        .ok { st with items := ainsert target { itemOf items' target with sno := v } items',
                      sN := n₂ }

/-- `toHead( cache, item, series, move )`.  Finds the item's index first
(only when moving), early-returns when the item is already the head,
otherwise assigns a fresh series number (`assignSno`, done after the
search, as the source notes it must be) and splices the item to the
front. -/
def toHead (st : CState) (target : Nat) (move : Bool) : Except Unit CState :=
  let i := if move then indexOfItem st.items st.cache target else -1
  if i = 0 then .ok st
  else
    match assignSno st target with
    | .error _ => .error ()
    | .ok st' =>
      if i > -1 then
        .ok { st' with
              cache := target :: (st'.cache.take i.toNat ++ st'.cache.drop (i.toNat + 1)) }
      else
        .ok { st' with cache := target :: st'.cache }

/-! ### The public cache operations -/

/-- `has(key)`: `!!(item && item.data)` — the group must exist, the id
binding must exist, and the stored data must be truthy. -/
def hasKey (st : CState) (k : JKey) : Bool :=
  match alookup k.group st.groups with
  | none => false
  | some tbl =>
    match alookup k.id tbl with
    | none => false
    | some i => (st.item i).data.truthy

/-- `get(key)`: on a hit, promote the item via `toHead` (which can raise
the uncaught renumber overflow), refresh `item.time`, and return
`item.data`; on a miss return `undefined`. -/
def getOp (now : Int) (st : CState) (k : JKey) : Except Unit (CState × JSValue) :=
  match alookup k.group st.groups with
  | none => .ok (st, .undef)
  | some tbl =>
    match alookup k.id tbl with
    | none => .ok (st, .undef)
    | some i =>
      match toHead st i true with
      | .error _ => .error ()
      | .ok st' =>
        let st'' := st'.setItem i { st'.item i with time := now }
        .ok (st'', (st''.item i).data)

/-- The insert half of `add`: allocate a fresh item object (`sno` and
`time` are placeholders overwritten before any read), register it in its
group's table (`tbl` under `groups₀`, which already contains the group,
freshly created when it did not exist), grow the total, and promote with
`move = false`; then stamp `item.time`. -/
def addInsert (now : Int) (st : CState) (data : JSValue) (k : JKey) (size : Int)
    (tbl : GroupTable) (groups₀ : Groups) : Except Unit (CState × Nat) :=
  match toHead
    { st with groups := ainsert k.group (ainsert k.id st.nextId tbl) groups₀,
              items := ainsert st.nextId
                { key := k, data := data, size := size, sno := 0, time := 0 } st.items,
              nextId := st.nextId + 1,
              totalSize := st.totalSize + size } st.nextId false with
  | .error _ => .error ()
  | .ok st₂ => .ok (st₂.setItem st.nextId { st₂.item st.nextId with time := now }, st.nextId)

/-- `add(data, key, size)` minus its scheduled prune pass (which is
deferred; see `pruneStep`).  `size = size || 0` is the identity on the
integer sizes modelled here.  On an update: adjust `totalSize` by the
delta, replace `size`/`data`, promote with `move = true`, stamp
`item.time`.  On an insert: create the group first when absent (in JS the
fresh table object is stored in `groups` before the item is added to it),
then `addInsert`.  Returns the item handle (its heap id). -/
def addOp (now : Int) (st : CState) (data : JSValue) (k : JKey) (size : Int) :
    Except Unit (CState × Nat) :=
  match alookup k.group st.groups with
  | some tbl =>
    match alookup k.id tbl with
    | some i =>
      match toHead
        { st with totalSize := st.totalSize + (size - (st.item i).size),
                  items := ainsert i { st.item i with size := size, data := data }
                    st.items } i true with
      | .error _ => .error ()
      | .ok st₂ => .ok (st₂.setItem i { st₂.item i with time := now }, i)
    | none => addInsert now st data k size tbl st.groups
  | none => addInsert now st data k size [] (ainsert k.group [] st.groups)

/-- `totalSize -= item.size` followed by `removeItem`: clear the data and
zero the size of one item object, leaving it on the list as a tombstone. -/
def tombstone (st : CState) (i : Nat) : CState :=
  { st with totalSize := st.totalSize - (st.item i).size,
            items := ainsert i { st.item i with data := .undef, size := 0 } st.items }

/-- The deferred body of `remove(key)`, run as one atomic step against the
state current when the tick fires.  With a truthy `key.id`: tombstone the
one item, drop its binding, and drop the group when it became empty.  With
a falsy `key.id`: tombstone every member of the group (a `for..in` over a
missing group iterates zero times) and delete the whole group mapping.
Removals of missing keys are silent no-ops. -/
def removeStep (st : CState) (k : JKey) : CState :=
  if idTruthy k.id then
    match alookup k.group st.groups with
    | none => st
    | some tbl =>
      match alookup k.id tbl with
      | none => st
      | some i =>
        { tombstone st i with
          groups := if adelete k.id tbl = [] then adelete k.group st.groups
                    else ainsert k.group (adelete k.id tbl) st.groups }
  else
    { ((alookup k.group st.groups).getD []).foldl (fun acc p => tombstone acc p.2) st with
      groups := adelete k.group st.groups }

/-- The eviction loop of `prune`, walking the reversed cache list.  While
the bound condition holds for the current tail item: subtract its size,
`delete group[key.id]` — which in JS throws a `TypeError` when the item's
group is no longer in the index (modelled as `.error ()`) — and record the
group as pruned.  Returns the updated index, total, number of evicted
entries and the recorded group names. -/
def pruneLoop (items : List (Nat × Item)) (bound : Item → Int → Bool) :
    List Nat → Groups → Int → Nat → List Nat →
    Except Unit (Groups × Int × Nat × List Nat)
  | [], groups, total, cnt, pruned => .ok (groups, total, cnt, pruned)
  | i :: rest, groups, total, cnt, pruned =>
    let it := itemOf items i
    if bound it total then
      match alookup it.key.group groups with
      | none => .error ()
      | some tbl =>
        pruneLoop items bound rest
          (ainsert it.key.group (adelete it.key.id tbl) groups)
          (total - it.size) (cnt + 1) (pruned ++ [it.key.group])
    else .ok (groups, total, cnt, pruned)

/-- The cleanup pass at the end of `prune`: delete every recorded group
that ended up empty.  (In JS `prunedGroups` is an object, so names are
deduplicated; processing a name twice is idempotent, so a plain list is
an equivalent model.) -/
def cleanupGroups : List Nat → Groups → Groups
  | [], groups => groups
  | g :: rest, groups =>
    cleanupGroups rest
      (match alookup g groups with
       | some tbl => if tbl = [] then adelete g groups else groups
       | none => groups)

/-- The deferred body of `prune`, run as one atomic step: evict from the
tail while the bound condition holds, trim the cache list
(`cache.slice(0, i + 1)`), and drop groups left empty. -/
def pruneStep (bound : Item → Int → Bool) (st : CState) : Except Unit CState :=
  match pruneLoop st.items bound st.cache.reverse st.groups st.totalSize 0 [] with
  | .error _ => .error ()
  | .ok (groups', total', cnt, pruned) =>
    .ok { st with cache := st.cache.take (st.cache.length - cnt),
                  groups := cleanupGroups pruned groups',
                  totalSize := total' }

/-- `inspect()`: `{ totalSize, groups: Object.keys(groups), items: cache }`. -/
structure Snapshot where
  totalSize : Int
  groups : List Nat
  items : List Nat
deriving DecidableEq, Repr

def inspect (st : CState) : Snapshot :=
  { totalSize := st.totalSize, groups := keysOf st.groups, items := st.cache }

/-- `group(id)`: the raw id table, or `undefined`. -/
def groupOp (st : CState) (g : Nat) : Option GroupTable :=
  alookup g st.groups

/-- The bound condition installed by `createWithMaxSize`:
`totalSize > maxSize`. -/
def maxSizeBound (maxSize : Int) : Item → Int → Bool :=
  fun _ total => total > maxSize

/-- The bound condition installed by `createWithMaxAge`:
`Date.now() - tailItem.time > maxAge`. -/
def maxAgeBound (now maxAge : Int) : Item → Int → Bool :=
  fun it _ => now - it.time > maxAge

/-! ### Operation sequences

`add` schedules a prune pass and `remove` defers its body; a run of the
system is a sequence of synchronous calls interleaved with the deferred
passes in the order the cooperative scheduler fires them.  `Op` makes that
schedule explicit: `pruneP` is one deferred prune pass and `removeP` a
`remove` call together with its deferred body. -/

inductive Op where
  | add (now : Int) (data : JSValue) (k : JKey) (size : Int)
  | get (now : Int) (k : JKey)
  | removeP (k : JKey)
  | pruneP
deriving DecidableEq, Repr

def runOp (bound : Item → Int → Bool) (st : CState) : Op → Except Unit CState
  | .add now data k size => (addOp now st data k size).map Prod.fst
  | .get now k => (getOp now st k).map Prod.fst
  | .removeP k => .ok (removeStep st k)
  | .pruneP => pruneStep bound st

/-- Run a schedule of operations; `.error` as soon as any step throws. -/
def runOps (bound : Item → Int → Bool) : List Op → CState → Except Unit CState
  | [], st => .ok st
  | op :: rest, st =>
    match runOp bound st op with
    | .error e => .error e
    | .ok st' => runOps bound rest st'

/-! ### Association list lemmas -/

theorem alookup_nil {α β : Type} [DecidableEq α] (k : α) :
    alookup (β := β) k [] = none := rfl

theorem alookup_cons_eq {α β : Type} [DecidableEq α] {pk k : α} (h : pk = k)
    (pv : β) (rest : List (α × β)) : alookup k ((pk, pv) :: rest) = some pv := by
  simp [alookup, h]

theorem alookup_cons_ne {α β : Type} [DecidableEq α] {pk k : α} (h : pk ≠ k)
    (pv : β) (rest : List (α × β)) : alookup k ((pk, pv) :: rest) = alookup k rest := by
  simp [alookup, h]

theorem ainsert_cons_eq {α β : Type} [DecidableEq α] {pk k : α} (h : pk = k)
    (v pv : β) (rest : List (α × β)) : ainsert k v ((pk, pv) :: rest) = (k, v) :: rest := by
  simp [ainsert, h]

theorem ainsert_cons_ne {α β : Type} [DecidableEq α] {pk k : α} (h : pk ≠ k)
    (v pv : β) (rest : List (α × β)) :
    ainsert k v ((pk, pv) :: rest) = (pk, pv) :: ainsert k v rest := by
  simp [ainsert, h]

theorem adelete_cons_eq {α β : Type} [DecidableEq α] {pk k : α} (h : pk = k)
    (pv : β) (rest : List (α × β)) : adelete k ((pk, pv) :: rest) = adelete k rest := by
  simp [adelete, h]

theorem adelete_cons_ne {α β : Type} [DecidableEq α] {pk k : α} (h : pk ≠ k)
    (pv : β) (rest : List (α × β)) :
    adelete k ((pk, pv) :: rest) = (pk, pv) :: adelete k rest := by
  simp [adelete, h]

theorem alookup_ainsert_self {α β : Type} [DecidableEq α] (k : α) (v : β) (m : List (α × β)) :
    alookup k (ainsert k v m) = some v := by
  induction m with
  | nil => simp [ainsert, alookup]
  | cons p rest ih =>
    obtain ⟨pk, pv⟩ := p
    by_cases h : pk = k
    · rw [ainsert_cons_eq h, alookup_cons_eq rfl]
    · rw [ainsert_cons_ne h, alookup_cons_ne h, ih]

theorem alookup_ainsert_ne {α β : Type} [DecidableEq α] {k k' : α} (v : β) (m : List (α × β))
    (h : k' ≠ k) : alookup k' (ainsert k v m) = alookup k' m := by
  induction m with
  | nil => simp [ainsert, alookup, Ne.symm h]
  | cons p rest ih =>
    obtain ⟨pk, pv⟩ := p
    by_cases hp : pk = k
    · subst hp
      rw [ainsert_cons_eq rfl, alookup_cons_ne (Ne.symm h), alookup_cons_ne (Ne.symm h)]
    · by_cases hp' : pk = k'
      · rw [ainsert_cons_ne hp, alookup_cons_eq hp', alookup_cons_eq hp']
      · rw [ainsert_cons_ne hp, alookup_cons_ne hp', alookup_cons_ne hp', ih]

theorem alookup_adelete_self {α β : Type} [DecidableEq α] (k : α) (m : List (α × β)) :
    alookup k (adelete k m) = none := by
  induction m with
  | nil => simp [adelete, alookup]
  | cons p rest ih =>
    obtain ⟨pk, pv⟩ := p
    by_cases h : pk = k
    · rw [adelete_cons_eq h, ih]
    · rw [adelete_cons_ne h, alookup_cons_ne h, ih]

theorem alookup_adelete_ne {α β : Type} [DecidableEq α] {k k' : α} (m : List (α × β))
    (h : k' ≠ k) : alookup k' (adelete k m) = alookup k' m := by
  induction m with
  | nil => simp [adelete, alookup]
  | cons p rest ih =>
    obtain ⟨pk, pv⟩ := p
    by_cases hp : pk = k
    · subst hp
      rw [adelete_cons_eq rfl, alookup_cons_ne (Ne.symm h), ih]
    · by_cases hp' : pk = k'
      · rw [adelete_cons_ne hp, alookup_cons_eq hp', alookup_cons_eq hp']
      · rw [adelete_cons_ne hp, alookup_cons_ne hp', alookup_cons_ne hp', ih]

theorem alookup_eq_none_iff {α β : Type} [DecidableEq α] {k : α} {m : List (α × β)} :
    alookup k m = none ↔ k ∉ keysOf m := by
  induction m with
  | nil => simp [alookup, keysOf]
  | cons p rest ih =>
    obtain ⟨pk, pv⟩ := p
    by_cases h : pk = k
    · subst h
      rw [alookup_cons_eq rfl]
      simp [keysOf]
    · rw [alookup_cons_ne h, ih]
      have hk : ¬k = pk := fun e => h e.symm
      simp only [keysOf, List.map_cons, List.mem_cons]
      tauto

theorem alookup_isSome_iff {α β : Type} [DecidableEq α] {k : α} {m : List (α × β)} :
    (alookup k m).isSome ↔ k ∈ keysOf m := by
  rw [← not_iff_not, Option.not_isSome_iff_eq_none, alookup_eq_none_iff]

theorem mem_keysOf_ainsert {α β : Type} [DecidableEq α] {k' k : α} (v : β) (m : List (α × β)) :
    k' ∈ keysOf (ainsert k v m) ↔ k' = k ∨ k' ∈ keysOf m := by
  induction m with
  | nil => simp [ainsert, keysOf]
  | cons p rest ih =>
    obtain ⟨pk, pv⟩ := p
    by_cases h : pk = k
    · subst h
      rw [ainsert_cons_eq rfl]
      simp only [keysOf, List.map_cons, List.mem_cons]
      tauto
    · rw [ainsert_cons_ne h]
      simp only [keysOf, List.map_cons, List.mem_cons]
      rw [show List.map Prod.fst (ainsert k v rest) = keysOf (ainsert k v rest) from rfl, ih]
      simp only [keysOf]
      tauto

theorem mem_keysOf_adelete {α β : Type} [DecidableEq α] {k' k : α} (m : List (α × β)) :
    k' ∈ keysOf (adelete k m) ↔ k' ∈ keysOf m ∧ k' ≠ k := by
  induction m with
  | nil => simp [adelete, keysOf]
  | cons p rest ih =>
    obtain ⟨pk, pv⟩ := p
    by_cases h : pk = k
    · subst h
      rw [adelete_cons_eq rfl, ih]
      simp only [keysOf, List.map_cons, List.mem_cons]
      constructor
      · rintro ⟨h1, h2⟩
        exact ⟨Or.inr h1, h2⟩
      · rintro ⟨h1 | h1, h2⟩
        · exact absurd h1 h2
        · exact ⟨h1, h2⟩
    · rw [adelete_cons_ne h]
      simp only [keysOf, List.map_cons, List.mem_cons]
      rw [show List.map Prod.fst (adelete k rest) = keysOf (adelete k rest) from rfl, ih]
      simp only [keysOf]
      constructor
      · rintro (rfl | ⟨h1, h2⟩)
        · exact ⟨Or.inl rfl, h⟩
        · exact ⟨Or.inr h1, h2⟩
      · rintro ⟨h1 | h1, h2⟩
        · exact Or.inl h1
        · exact Or.inr ⟨h1, h2⟩

theorem keysOf_nodup_ainsert {α β : Type} [DecidableEq α] {k : α} (v : β) {m : List (α × β)}
    (h : (keysOf m).Nodup) : (keysOf (ainsert k v m)).Nodup := by
  induction m with
  | nil => simp [ainsert, keysOf]
  | cons p rest ih =>
    obtain ⟨pk, pv⟩ := p
    simp only [keysOf, List.map_cons, List.nodup_cons] at h
    by_cases hp : pk = k
    · subst hp
      rw [ainsert_cons_eq rfl]
      simp only [keysOf, List.map_cons, List.nodup_cons]
      exact h
    · rw [ainsert_cons_ne hp]
      simp only [keysOf, List.map_cons, List.nodup_cons]
      refine ⟨fun hmem => ?_, ih h.2⟩
      rcases (mem_keysOf_ainsert v rest).mp hmem with h1 | h1
      · exact hp h1
      · exact h.1 h1

theorem keysOf_nodup_adelete {α β : Type} [DecidableEq α] {k : α} {m : List (α × β)}
    (h : (keysOf m).Nodup) : (keysOf (adelete k m)).Nodup := by
  induction m with
  | nil => simp [adelete, keysOf]
  | cons p rest ih =>
    obtain ⟨pk, pv⟩ := p
    simp only [keysOf, List.map_cons, List.nodup_cons] at h
    by_cases hp : pk = k
    · rw [adelete_cons_eq hp]
      exact ih h.2
    · rw [adelete_cons_ne hp]
      simp only [keysOf, List.map_cons, List.nodup_cons]
      refine ⟨fun hmem => ?_, ih h.2⟩
      exact h.1 ((mem_keysOf_adelete rest).mp hmem).1

theorem alookup_mem {α β : Type} [DecidableEq α] {k : α} {v : β} {m : List (α × β)}
    (h : alookup k m = some v) : (k, v) ∈ m := by
  induction m with
  | nil => simp [alookup] at h
  | cons p rest ih =>
    by_cases hp : p.1 = k
    · simp only [alookup, if_pos hp] at h
      rcases h
      rcases hp
      simp
    · simp only [alookup, if_neg hp] at h
      exact List.mem_cons_of_mem _ (ih h)

theorem mem_alookup {α β : Type} [DecidableEq α] {k : α} {v : β} {m : List (α × β)}
    (hnd : (keysOf m).Nodup) (h : (k, v) ∈ m) : alookup k m = some v := by
  induction m with
  | nil => simp at h
  | cons p rest ih =>
    simp only [keysOf, List.map_cons, List.nodup_cons] at hnd
    rcases List.mem_cons.mp h with h1 | h1
    · rcases h1
      simp [alookup]
    · have hk : p.1 ≠ k := by
        rintro rfl
        exact hnd.1 (List.mem_map.mpr ⟨(p.1, v), h1, rfl⟩)
      simpa [alookup, hk] using ih hnd.2 h1

/-! ### Lemmas about `jsNth` and `jsIndexOf` -/

theorem jsNth_eq_some {c : List Nat} {i : Int} {t : Nat} :
    jsNth c i = some t ↔ 0 ≤ i ∧ c.get? i.toNat = some t := by
  unfold jsNth
  split
  · rename_i hneg
    constructor
    · intro hg
      exact absurd hg (by simp)
    · rintro ⟨h0, _⟩
      exact absurd h0 (by omega)
  · rename_i hpos
    constructor
    · intro hg
      exact ⟨by omega, hg⟩
    · exact And.right

theorem jsNth_mem {c : List Nat} {i : Int} {t : Nat} (h : jsNth c i = some t) : t ∈ c := by
  obtain ⟨_, hg⟩ := jsNth_eq_some.mp h
  exact List.get?_mem hg

theorem jsNth_inj {c : List Nat} (hnd : c.Nodup) {a b : Int} {t : Nat}
    (ha : jsNth c a = some t) (hb : jsNth c b = some t) : a = b := by
  obtain ⟨ha0, hag⟩ := jsNth_eq_some.mp ha
  obtain ⟨hb0, hbg⟩ := jsNth_eq_some.mp hb
  have hal : a.toNat < c.length := (List.get?_eq_some.mp hag).1
  have : a.toNat = b.toNat := List.get?_inj hal hnd (by rw [hag, hbg])
  omega

theorem jsIndexOf_of_not_mem {c : List Nat} {t : Nat} (h : t ∉ c) : jsIndexOf c t = -1 := by
  induction c with
  | nil => rfl
  | cons y rest ih =>
    have hy : ¬y = t := fun e => h (e ▸ List.mem_cons_self y rest)
    have hr : t ∉ rest := fun hm => h (List.mem_cons_of_mem _ hm)
    simp [jsIndexOf, hy, ih hr]

theorem jsIndexOf_mem {c : List Nat} {t : Nat} (h : t ∈ c) :
    0 ≤ jsIndexOf c t ∧ jsNth c (jsIndexOf c t) = some t := by
  induction c with
  | nil => simp at h
  | cons y rest ih =>
    by_cases hy : y = t
    · subst hy
      constructor <;> simp [jsIndexOf, jsNth]
    · have hr : t ∈ rest := by
        rcases List.mem_cons.mp h with h1 | h1
        · exact absurd h1.symm hy
        · exact h1
      obtain ⟨h0, hnth⟩ := ih hr
      have hne : jsIndexOf rest t ≠ -1 := by omega
      simp only [jsIndexOf, if_neg hy, if_neg hne]
      refine ⟨by omega, ?_⟩
      rw [jsNth_eq_some] at hnth ⊢
      obtain ⟨_, hg⟩ := hnth
      refine ⟨by omega, ?_⟩
      rw [show (jsIndexOf rest t + 1).toNat = (jsIndexOf rest t).toNat + 1 by omega,
        List.get?_cons_succ]
      exact hg

theorem jsIndexOf_get {c : List Nat} {t : Nat} (hnd : c.Nodup) {j : Int}
    (hj : jsNth c j = some t) : jsIndexOf c t = j := by
  have hmem : t ∈ c := jsNth_mem hj
  obtain ⟨h0, hnth⟩ := jsIndexOf_mem hmem
  exact jsNth_inj hnd hnth hj

/-! ### Correctness of `indexOfItem` (claim C5's algorithm) -/

/-- The cache list invariant: strictly descending series numbers. -/
def SortedDesc (items : List (Nat × Item)) (c : List Nat) : Prop :=
  c.Pairwise fun a b => (itemOf items b).sno < (itemOf items a).sno

theorem SortedDesc.nodup {items : List (Nat × Item)} {c : List Nat}
    (hs : SortedDesc items c) : c.Nodup :=
  hs.imp fun hab => by
    rintro rfl
    exact absurd hab (lt_irrefl _)

theorem SortedDesc.nth_lt {items : List (Nat × Item)} {c : List Nat}
    (hs : SortedDesc items c) {a b : Int} {x y : Nat}
    (hx : jsNth c a = some x) (hy : jsNth c b = some y) (hab : a < b) :
    (itemOf items y).sno < (itemOf items x).sno := by
  obtain ⟨ha0, hxg⟩ := jsNth_eq_some.mp hx
  obtain ⟨hb0, hyg⟩ := jsNth_eq_some.mp hy
  obtain ⟨hal, hxe⟩ := List.get?_eq_some.mp hxg
  obtain ⟨hbl, hye⟩ := List.get?_eq_some.mp hyg
  have hlt : (⟨a.toNat, hal⟩ : Fin c.length) < ⟨b.toNat, hbl⟩ := by
    simp only [Fin.mk_lt_mk]
    omega
  have := List.pairwise_iff_get.mp hs ⟨a.toNat, hal⟩ ⟨b.toNat, hbl⟩ hlt
  rwa [hxe, hye] at this

/-- If the target sits at index `j` inside the search range, and the final
`rm` would already be correct in the degenerate `rs = re` entry case, the
binary-search loop ends on an index holding the target. -/
theorem bsLoop_finds (items : List (Nat × Item)) {c : List Nat} {t : Nat}
    (hs : SortedDesc items c) {j : Int} (hj : jsNth c j = some t) :
    ∀ (n : Nat) (rs re rm : Int), (re - rs).toNat = n →
      0 ≤ rs → re < (c.length : Int) → rs ≤ j → j ≤ re → (rs = re → rm = rs) →
      jsNth c (bsLoop items t c rs re rm) = some t := by
  intro n
  induction n using Nat.strong_induction_on with
  | _ n ih =>
    intro rs re rm hn h0 hre hrsj hjre hrm
    rw [bsLoop]
    split
    · rename_i hlt
      have hm1 : rs ≤ (rs + re) / 2 := by omega
      have hm2 : (rs + re) / 2 < re := by omega
      have hnn : ¬(rs + re) / 2 < 0 := by omega
      have h2 : ((rs + re) / 2).toNat < c.length := by omega
      obtain ⟨u, hu⟩ : ∃ u, jsNth c ((rs + re) / 2) = some u := by
        refine ⟨c.get ⟨((rs + re) / 2).toNat, h2⟩, ?_⟩
        simp only [jsNth, if_neg hnn]
        exact List.get?_eq_get h2
      simp only [hu]
      by_cases hut : u = t
      · subst hut
        rw [if_pos rfl]
        exact hu
      · rw [if_neg hut]
        by_cases hcmp : (itemOf items t).sno < (itemOf items u).sno
        · rw [if_pos hcmp]
          have hjgt : (rs + re) / 2 < j := by
            rcases lt_trichotomy j ((rs + re) / 2) with h1 | h1 | h1
            · have := hs.nth_lt hj hu h1
              omega
            · exact absurd (h1 ▸ hj) (by rw [hu]; exact fun he => hut (by cases he; rfl))
            · exact h1
          exact ih ((re - ((rs + re) / 2 + 1)).toNat) (by omega) _ _ _ rfl (by omega) hre
            (by omega) hjre (fun _ => rfl)
        · rw [if_neg hcmp]
          have hjlt : j < (rs + re) / 2 := by
            rcases lt_trichotomy j ((rs + re) / 2) with h1 | h1 | h1
            · exact h1
            · exact absurd (h1 ▸ hj) (by rw [hu]; exact fun he => hut (by cases he; rfl))
            · have := hs.nth_lt hu hj h1
              omega
          exact ih (((rs + re) / 2 - 1 - rs).toNat) (by omega) _ _ _ rfl h0
            (by omega) hrsj (by omega) (fun h => by omega)
    · rename_i hge
      have : rs = re := by omega
      rw [hrm this]
      have : rs = j := by omega
      rwa [this]

/-- `indexOfItem` agrees with the plain linear scan on every sorted cache
list: the binary-search path locates exactly the entry's index and returns
`-1` (never a stale slot) when the entry is absent. -/
theorem indexOfItem_eq (items : List (Nat × Item)) {c : List Nat} (t : Nat)
    (hs : SortedDesc items c) : indexOfItem items c t = jsIndexOf c t := by
  unfold indexOfItem
  split
  · rfl
  · rename_i hlen
    by_cases hmem : t ∈ c
    · obtain ⟨h0, hnth⟩ := jsIndexOf_mem hmem
      have hub : (jsIndexOf c t).toNat < c.length :=
        (List.get?_eq_some.mp (jsNth_eq_some.mp hnth).2).1
      have hfound := bsLoop_finds items hs hnth
        ((c.length : Int) - 1 - 0).toNat 0 ((c.length : Int) - 1) (-1) rfl (le_refl 0)
        (by omega) h0 (by omega) (fun h => by omega)
      rw [if_pos hfound]
      exact jsNth_inj hs.nodup hfound hnth
    · have hnone : jsNth c (bsLoop items t c 0 ((c.length : Int) - 1) (-1)) ≠ some t :=
        fun h => hmem (jsNth_mem h)
      rw [if_neg hnone, jsIndexOf_of_not_mem hmem]

/-! ### Heap update lemmas -/

theorem itemOf_ainsert_self (items : List (Nat × Item)) (i : Nat) (it : Item) :
    itemOf (ainsert i it items) i = it := by
  simp [itemOf, alookup_ainsert_self]

theorem itemOf_ainsert_ne (items : List (Nat × Item)) {u i : Nat} (it : Item) (h : u ≠ i) :
    itemOf (ainsert i it items) u = itemOf items u := by
  simp [itemOf, alookup_ainsert_ne _ _ h]

/-- The running total the cache list accounts for: the sum of the sizes of
the item objects still on the list (tombstones carry size `0`). -/
def cacheSizes (st : CState) : Int :=
  (st.cache.map fun i => (st.item i).size).sum

/-! ### The state invariant -/

/-- Invariants of every reachable cache state (reachable through completed
steps): size accounting matches the list, the list is strictly descending
in `sno` with all numbers below the series counter, item ids are below the
allocation counter, the group index is well-keyed, and every registered
binding points at an item that carries exactly that key and is on the
list. -/
structure Inv (st : CState) : Prop where
  sizeEq : st.totalSize = cacheSizes st
  sorted : SortedDesc st.items st.cache
  snoLt : ∀ i ∈ st.cache, (st.item i).sno < st.sN
  fresh : ∀ i ∈ st.cache, i < st.nextId
  gkeys : (keysOf st.groups).Nodup
  tkeys : ∀ g tbl, alookup g st.groups = some tbl → (keysOf tbl).Nodup
  regKey : ∀ g tbl kid i, alookup g st.groups = some tbl → alookup kid tbl = some i →
    (st.item i).key = ⟨kid, g⟩
  regSub : ∀ g tbl kid i, alookup g st.groups = some tbl → alookup kid tbl = some i →
    i ∈ st.cache

theorem inv_init (sStart sEnd : Int) : Inv (initState sStart sEnd) := by
  constructor <;> simp [initState, cacheSizes, SortedDesc, alookup, keysOf]

/-! ### Renumbering and series assignment -/

theorem renumberRev_ok {sEnd : Int} {items : List (Nat × Item)} {rev : List Nat} {n : Int}
    {items' : List (Nat × Item)} {n' : Int}
    (h : renumberRev sEnd items rev n = .ok (items', n')) (hnd : rev.Nodup) :
    n' = n + rev.length ∧
    (∀ u, u ∉ rev → alookup u items' = alookup u items) ∧
    (∀ (j : Nat) (hj : j < rev.length),
      itemOf items' (rev.get ⟨j, hj⟩) =
        { itemOf items (rev.get ⟨j, hj⟩) with sno := n + j }) := by
  induction rev generalizing items n with
  | nil =>
    simp only [renumberRev] at h
    rcases h
    exact ⟨by simp, fun u _ => rfl, fun j hj => by simp at hj⟩
  | cons x rest ih =>
    rw [renumberRev] at h
    by_cases hn : n = sEnd
    · rw [seriesNext, if_pos hn] at h
      exact absurd h (by simp)
    · rw [seriesNext, if_neg hn] at h
      have h' : renumberRev sEnd (ainsert x { itemOf items x with sno := n } items) rest (n + 1)
          = .ok (items', n') := h
      have hx : x ∉ rest := (List.nodup_cons.mp hnd).1
      obtain ⟨ih1, ih2, ih3⟩ := ih h' (List.nodup_cons.mp hnd).2
      refine ⟨by simp only [List.length_cons] at *; push_cast at *; omega, ?_, ?_⟩
      · intro u hu
        have hux : u ≠ x := fun e => hu (e ▸ List.mem_cons_self x rest)
        have hur : u ∉ rest := fun hm => hu (List.mem_cons_of_mem _ hm)
        rw [ih2 u hur]
        exact alookup_ainsert_ne _ _ hux
      · intro j hj
        match j with
        | 0 =>
          show itemOf items' x = { itemOf items x with sno := n + (0 : Nat) }
          have he : alookup x items' =
              alookup x (ainsert x { itemOf items x with sno := n } items) := ih2 x hx
          rw [alookup_ainsert_self] at he
          simp only [itemOf, he, Option.getD_some]
          simp
        | j + 1 =>
          show itemOf items' (rest.get ⟨j, by simpa using hj⟩) =
            { itemOf items (rest.get ⟨j, by simpa using hj⟩) with sno := n + (j + 1 : Nat) }
          have hj' : j < rest.length := by simpa using hj
          rw [ih3 j hj',
            itemOf_ainsert_ne _ _ (fun e => hx (by rw [← e]; exact List.get_mem rest j hj'))]
          push_cast
          ring_nf

/-- Inversion for a successful `series.next()`. -/
theorem seriesNext_ok {n e v n' : Int} (h : seriesNext n e = .ok (v, n')) :
    n ≠ e ∧ v = n ∧ n' = n + 1 := by
  unfold seriesNext at h
  by_cases hc : n = e
  · rw [if_pos hc] at h
    exact absurd h (by simp)
  · rw [if_neg hc] at h
    have h2 : n = v ∧ n + 1 = n' := by simpa using Except.ok.inj h
    exact ⟨hc, h2.1.symm, h2.2.symm⟩

/-- Inversion for an overflowing `series.next()`. -/
theorem seriesNext_err {n e : Int} {u : Unit} (h : seriesNext n e = .error u) : n = e := by
  unfold seriesNext at h
  by_cases hc : n = e
  · exact hc
  · rw [if_neg hc] at h
    exact absurd h (by simp)

/-- What a completed series assignment guarantees: only the heap's `sno`
fields and the counter change; the target ends with the strictly largest
number; entries other than the target keep their relative order; and all
numbers stay below the new counter. -/
def SnoSpec (st st' : CState) (t : Nat) : Prop :=
  st'.groups = st.groups ∧ st'.cache = st.cache ∧ st'.totalSize = st.totalSize ∧
  st'.nextId = st.nextId ∧ st'.sStart = st.sStart ∧ st'.sEnd = st.sEnd ∧
  (∀ u, (st'.item u).key = (st.item u).key) ∧
  (∀ u, (st'.item u).size = (st.item u).size) ∧
  (∀ u, (st'.item u).data = (st.item u).data) ∧
  (∀ u ∈ st.cache, u ≠ t → (st'.item u).sno < (st'.item t).sno) ∧
  (∀ (j1 j2 : Fin st.cache.length), j1 < j2 → st.cache.get j1 ≠ t → st.cache.get j2 ≠ t →
    (st'.item (st.cache.get j2)).sno < (st'.item (st.cache.get j1)).sno) ∧
  (∀ u ∈ st.cache, (st'.item u).sno < st'.sN) ∧
  (st'.item t).sno < st'.sN

theorem assignSno_ok_normal {st : CState} {t : Nat}
    (hsorted : SortedDesc st.items st.cache)
    (hsno : ∀ u ∈ st.cache, (st.item u).sno < st.sN) :
    SnoSpec st
      { st with items := ainsert t { st.item t with sno := st.sN } st.items,
                sN := st.sN + 1 } t := by
  have hitem : ∀ u, CState.item
      { st with items := ainsert t { st.item t with sno := st.sN } st.items,
                sN := st.sN + 1 } u =
      if u = t then { st.item t with sno := st.sN } else st.item u := by
    intro u
    by_cases hu : u = t
    · subst hu
      rw [if_pos rfl]
      exact itemOf_ainsert_self _ _ _
    · rw [if_neg hu]
      exact itemOf_ainsert_ne _ _ hu
  refine ⟨rfl, rfl, rfl, rfl, rfl, rfl, ?_, ?_, ?_, ?_, ?_, ?_, ?_⟩
  · intro u
    rw [hitem u]
    by_cases hu : u = t <;> simp [hu]
  · intro u
    rw [hitem u]
    by_cases hu : u = t <;> simp [hu]
  · intro u
    rw [hitem u]
    by_cases hu : u = t <;> simp [hu]
  · intro u hu hut
    rw [hitem u, hitem t, if_neg hut, if_pos rfl]
    simp only
    exact hsno u hu
  · intro j1 j2 hlt h1t h2t
    rw [hitem _, hitem _, if_neg h1t, if_neg h2t]
    exact List.pairwise_iff_get.mp hsorted j1 j2 hlt
  · intro u hu
    rw [hitem u]
    by_cases hut : u = t
    · rw [if_pos hut]
      simp only
      omega
    · rw [if_neg hut]
      have := hsno u hu
      simp only
      omega
  · rw [hitem t, if_pos rfl]
    simp only
    omega

theorem assignSno_ok {st : CState} {t : Nat} {st' : CState}
    (h : assignSno st t = .ok st')
    (hsorted : SortedDesc st.items st.cache)
    (hsno : ∀ u ∈ st.cache, (st.item u).sno < st.sN) :
    SnoSpec st st' t := by
  rw [assignSno] at h
  split at h
  case _ v n' heq =>
    obtain ⟨hn, rfl, rfl⟩ := seriesNext_ok heq
    obtain rfl := Except.ok.inj h
    exact assignSno_ok_normal hsorted hsno
  case _ e heq =>
    split at h
    case _ e2 heq2 =>
      exact absurd h (by simp)
    case _ items' n₁ heq2 =>
      split at h
      case _ e3 heq3 =>
        exact absurd h (by simp)
      case _ v n₂ heq3 =>
        obtain ⟨hn1, hveq, hn2eq⟩ := seriesNext_ok heq3
        subst hveq
        subst hn2eq
        obtain rfl := Except.ok.inj h
        obtain ⟨r1, r2, r3⟩ := renumberRev_ok heq2 (List.nodup_reverse.mpr hsorted.nodup)
        rw [List.length_reverse] at r1
        have hrevpos : ∀ (j : Nat) (hj : j < st.cache.length),
            itemOf items' (st.cache.get ⟨j, hj⟩) =
              { st.item (st.cache.get ⟨j, hj⟩) with
                sno := st.sStart + ((st.cache.length - 1 - j : Nat) : Int) } := by
          intro j hj
          have hj' : st.cache.length - 1 - j < st.cache.reverse.length := by
            rw [List.length_reverse]
            omega
          have hpos := r3 (st.cache.length - 1 - j) hj'
          rw [List.get_reverse st.cache j hj' hj] at hpos
          rw [hpos]
          rfl
        have hpres : ∀ u, itemOf items' u = st.item u ∨
            ∃ (j : Nat) (hj : j < st.cache.length), u = st.cache.get ⟨j, hj⟩ ∧
              itemOf items' u =
                { st.item u with sno := st.sStart + ((st.cache.length - 1 - j : Nat) : Int) } := by
          intro u
          by_cases hu : u ∈ st.cache
          · obtain ⟨⟨j, hj⟩, he⟩ := List.mem_iff_get.mp hu
            right
            exact ⟨j, hj, he.symm, he ▸ hrevpos j hj⟩
          · left
            have := r2 u (by rwa [List.mem_reverse])
            simp only [CState.item, itemOf, this]
        have hitem : ∀ u, CState.item
            { st with items := ainsert t { itemOf items' t with sno := v } items',
                      sN := v + 1 } u =
            if u = t then { itemOf items' t with sno := v } else itemOf items' u := by
          intro u
          by_cases hu : u = t
          · subst hu
            rw [if_pos rfl]
            exact itemOf_ainsert_self _ _ _
          · rw [if_neg hu]
            exact itemOf_ainsert_ne _ _ hu
        refine ⟨rfl, rfl, rfl, rfl, rfl, rfl, ?_, ?_, ?_, ?_, ?_, ?_, ?_⟩
        · intro u
          rw [hitem u]
          rcases hpres u with hp | ⟨j, hj, he, hp⟩ <;> by_cases hu : u = t <;>
            simp [hu, hp] <;> subst hu <;> rw [hp]
        · intro u
          rw [hitem u]
          rcases hpres u with hp | ⟨j, hj, he, hp⟩ <;> by_cases hu : u = t <;>
            simp [hu, hp] <;> subst hu <;> rw [hp]
        · intro u
          rw [hitem u]
          rcases hpres u with hp | ⟨j, hj, he, hp⟩ <;> by_cases hu : u = t <;>
            simp [hu, hp] <;> subst hu <;> rw [hp]
        · intro u hu hut
          obtain ⟨⟨j, hj⟩, he⟩ := List.mem_iff_get.mp hu
          rw [hitem u, hitem t, if_neg hut, if_pos rfl, ← he, hrevpos j hj]
          simp only
          omega
        · intro j1 j2 hlt h1t h2t
          rw [hitem _, hitem _, if_neg h1t, if_neg h2t]
          obtain ⟨j1, hj1⟩ := j1
          obtain ⟨j2, hj2⟩ := j2
          rw [hrevpos j1 hj1, hrevpos j2 hj2]
          simp only
          simp only [Fin.mk_lt_mk] at hlt
          omega
        · intro u hu
          obtain ⟨⟨j, hj⟩, he⟩ := List.mem_iff_get.mp hu
          rw [hitem u]
          by_cases hut : u = t
          · rw [if_pos hut]
            simp only
            omega
          · rw [if_neg hut, ← he, hrevpos j hj]
            simp only
            omega
        · rw [hitem t, if_pos rfl]
          simp only
          omega

/-! ### `toHead` specification -/

def sumSizes (items : List (Nat × Item)) (l : List Nat) : Int :=
  (l.map fun u => (itemOf items u).size).sum

theorem sumSizes_append (items : List (Nat × Item)) (a b : List Nat) :
    sumSizes items (a ++ b) = sumSizes items a + sumSizes items b := by
  simp [sumSizes]

theorem sumSizes_cons (items : List (Nat × Item)) (x : Nat) (l : List Nat) :
    sumSizes items (x :: l) = (itemOf items x).size + sumSizes items l := by
  simp [sumSizes]

theorem sumSizes_congr {items items' : List (Nat × Item)} {l : List Nat}
    (h : ∀ u ∈ l, (itemOf items' u).size = (itemOf items u).size) :
    sumSizes items' l = sumSizes items l := by
  unfold sumSizes
  rw [List.map_congr_left]
  intro u hu
  exact h u hu

theorem cacheSizes_eq_sumSizes (st : CState) : cacheSizes st = sumSizes st.items st.cache := rfl

/-- What a completed `toHead` guarantees: the target is the new head, the
list stays strictly descending with all numbers below the counter, nothing
outside the ordering state changes, membership only gains the target, and
the sizes on the list grow by the target's size exactly when it was not
yet listed. -/
def HeadSpec (st st' : CState) (t : Nat) : Prop :=
  SortedDesc st'.items st'.cache ∧
  (∀ u ∈ st'.cache, (st'.item u).sno < st'.sN) ∧
  st'.groups = st.groups ∧ st'.totalSize = st.totalSize ∧ st'.nextId = st.nextId ∧
  st'.sStart = st.sStart ∧ st'.sEnd = st.sEnd ∧
  (∀ u, (st'.item u).key = (st.item u).key) ∧
  (∀ u, (st'.item u).size = (st.item u).size) ∧
  (∀ u, (st'.item u).data = (st.item u).data) ∧
  st'.cache.head? = some t ∧
  (∀ u, u ∈ st'.cache ↔ u = t ∨ u ∈ st.cache) ∧
  cacheSizes st' = cacheSizes st + (if t ∈ st.cache then 0 else (st.item t).size)

theorem toHead_early (st : CState) (t : Nat)
    (hsorted : SortedDesc st.items st.cache)
    (hsno : ∀ u ∈ st.cache, (st.item u).sno < st.sN)
    (hhead : st.cache.head? = some t) : HeadSpec st st t := by
  have hmem : t ∈ st.cache := by
    cases hc : st.cache with
    | nil => rw [hc] at hhead; simp at hhead
    | cons y l =>
      rw [hc] at hhead
      simp only [List.head?_cons, Option.some.injEq] at hhead
      rw [← hhead]
      exact List.mem_cons_self _ _
  refine ⟨hsorted, hsno, rfl, rfl, rfl, rfl, rfl, fun _ => rfl, fun _ => rfl, fun _ => rfl,
    hhead, fun u => ?_, ?_⟩
  · constructor
    · exact fun hu => Or.inr hu
    · rintro (rfl | hu)
      · exact hmem
      · exact hu
  · rw [if_pos hmem]
    omega

/-- Assembling `HeadSpec` for the list `t :: tail`, where `tail` consists
of (old) cache members other than `t`, in their old relative order. -/
theorem headSpec_build {st st'' : CState} {t : Nat} (tail : List Nat)
    (hspec : SnoSpec st st'' t)
    (hsub : tail.Sublist st.cache)
    (hnt : ∀ u ∈ tail, u ≠ t)
    (hmemiff : ∀ u, (u ∈ t :: tail) ↔ (u = t ∨ u ∈ st.cache))
    (hsizes : sumSizes st.items (t :: tail) =
      cacheSizes st + (if t ∈ st.cache then 0 else (st.item t).size)) :
    HeadSpec st { st'' with cache := t :: tail } t := by
  obtain ⟨s1, s2, s3, s4, s5, s6, s7, s8, s9, s10, s11, s12, s13⟩ := hspec
  have hitem : ∀ u, CState.item { st'' with cache := t :: tail } u = st''.item u :=
    fun _ => rfl
  have hpair : st.cache.Pairwise fun a b =>
      a ≠ t → b ≠ t → (st''.item b).sno < (st''.item a).sno := by
    rw [List.pairwise_iff_get]
    intro j1 j2 hlt h1t h2t
    exact s11 j1 j2 hlt h1t h2t
  have htail : tail.Pairwise fun a b => (st''.item b).sno < (st''.item a).sno := by
    have := hpair.sublist hsub
    exact this.imp_of_mem fun ha hb hr => hr (hnt _ ha) (hnt _ hb)
  refine ⟨?_, ?_, s1, s3, s4, s5, s6, s7, s8, s9, rfl, hmemiff, ?_⟩
  · rw [SortedDesc, List.pairwise_cons]
    constructor
    · intro v hv
      exact s10 v (hsub.mem hv) (hnt v hv)
    · exact htail
  · intro u hu
    rcases List.mem_cons.mp hu with rfl | hu
    · exact s13
    · exact s12 u (hsub.mem hu)
  · show sumSizes st''.items (t :: tail) = _
    rw [sumSizes_congr (fun u _ => s8 u)]
    exact hsizes

theorem toHead_prepend {st st'' : CState} {t : Nat}
    (hspec : SnoSpec st st'' t) (ht : t ∉ st.cache) :
    HeadSpec st { st'' with cache := t :: st''.cache } t := by
  have hc : st''.cache = st.cache := hspec.2.1
  rw [hc]
  refine headSpec_build st.cache hspec (List.Sublist.refl _)
    (fun u hu => fun he => ht (he ▸ hu)) (fun u => List.mem_cons) ?_
  rw [sumSizes_cons, if_neg ht, cacheSizes_eq_sumSizes]
  simp only [CState.item]
  omega

theorem toHead_splice {st st'' : CState} {t : Nat} {idx : Int}
    (hspec : SnoSpec st st'' t)
    (hsorted : SortedDesc st.items st.cache)
    (hnth : jsNth st.cache idx = some t) :
    HeadSpec st { st'' with cache :=
      t :: (st''.cache.take idx.toNat ++ st''.cache.drop (idx.toNat + 1)) } t := by
  have hc : st''.cache = st.cache := hspec.2.1
  rw [hc]
  obtain ⟨h0, hg⟩ := jsNth_eq_some.mp hnth
  have hlen : idx.toNat < st.cache.length := (List.get?_eq_some.mp hg).1
  have hsplit : st.cache = st.cache.take idx.toNat ++ t :: st.cache.drop (idx.toNat + 1) := by
    conv_lhs => rw [← List.take_append_drop idx.toNat st.cache]
    rw [List.drop_eq_get_cons hlen]
    rw [(List.get?_eq_some.mp hg).2]
  have hnd : st.cache.Nodup := hsorted.nodup
  have hparts := hsplit ▸ hnd
  rw [List.nodup_append] at hparts
  obtain ⟨hndA, hndB, hdisj⟩ := hparts
  have htA : t ∉ st.cache.take idx.toNat := fun hmem =>
    (hdisj hmem) (List.mem_cons_self _ _)
  have htB : t ∉ st.cache.drop (idx.toNat + 1) := (List.nodup_cons.mp hndB).1
  have hmem : t ∈ st.cache := jsNth_mem hnth
  refine headSpec_build _ hspec ?_ ?_ ?_ ?_
  · conv_rhs => rw [hsplit]
    exact List.Sublist.append (List.Sublist.refl _)
      (List.sublist_cons_of_sublist _ (List.Sublist.refl _))
  · intro u hu he
    subst he
    rcases List.mem_append.mp hu with h1 | h1
    · exact htA h1
    · exact htB h1
  · intro u
    rw [List.mem_cons]
    constructor
    · rintro (rfl | hu)
      · exact Or.inl rfl
      · right
        rw [hsplit]
        rcases List.mem_append.mp hu with h1 | h1
        · exact List.mem_append.mpr (Or.inl h1)
        · exact List.mem_append.mpr (Or.inr (List.mem_cons_of_mem _ h1))
    · rintro (rfl | hu)
      · exact Or.inl rfl
      · rw [hsplit] at hu
        rcases List.mem_append.mp hu with h1 | h1
        · exact Or.inr (List.mem_append.mpr (Or.inl h1))
        · rcases List.mem_cons.mp h1 with rfl | h1
          · exact Or.inl rfl
          · exact Or.inr (List.mem_append.mpr (Or.inr h1))
  · rw [if_pos hmem, cacheSizes_eq_sumSizes]
    conv_rhs => rw [hsplit]
    rw [sumSizes_cons, sumSizes_append, sumSizes_append, sumSizes_cons]
    ring

/-- Full specification of a completed `toHead` call.  When `move = false`
the caller guarantees the target is a fresh object not yet on the list
(`add`'s insert path). -/
theorem toHead_ok {st : CState} {t : Nat} {move : Bool} {st' : CState}
    (h : toHead st t move = .ok st')
    (hsorted : SortedDesc st.items st.cache)
    (hsno : ∀ u ∈ st.cache, (st.item u).sno < st.sN)
    (hmove : move = false → t ∉ st.cache) :
    HeadSpec st st' t := by
  rw [toHead, indexOfItem_eq _ _ hsorted] at h
  cases move with
  | false =>
    have ht : t ∉ st.cache := hmove rfl
    simp only [Bool.false_eq_true, if_false] at h
    rw [if_neg (by norm_num)] at h
    split at h
    · exact absurd h (by simp)
    · rename_i st'' heqA
      rw [if_neg (by norm_num)] at h
      obtain rfl := Except.ok.inj h
      exact toHead_prepend (assignSno_ok heqA hsorted hsno) ht
  | true =>
    simp only [if_true] at h
    by_cases hmem : t ∈ st.cache
    · obtain ⟨h0, hnth⟩ := jsIndexOf_mem hmem
      by_cases hz : jsIndexOf st.cache t = 0
      · rw [if_pos hz] at h
        obtain rfl := Except.ok.inj h
        refine toHead_early st t hsorted hsno ?_
        rw [hz] at hnth
        have : st.cache.get? 0 = some t := (jsNth_eq_some.mp hnth).2
        rwa [List.get?_zero] at this
      · rw [if_neg hz] at h
        split at h
        · exact absurd h (by simp)
        · rename_i st'' heqA
          rw [if_pos (by omega)] at h
          obtain rfl := Except.ok.inj h
          exact toHead_splice (assignSno_ok heqA hsorted hsno) hsorted hnth
    · have hneg : jsIndexOf st.cache t = -1 := jsIndexOf_of_not_mem hmem
      rw [hneg] at h
      rw [if_neg (by norm_num)] at h
      split at h
      · exact absurd h (by simp)
      · rename_i st'' heqA
        rw [if_neg (by norm_num)] at h
        obtain rfl := Except.ok.inj h
        exact toHead_prepend (assignSno_ok heqA hsorted hsno) hmem

/-! ### Invariant preservation -/

theorem sumSizes_ainsert_not_mem {items : List (Nat × Item)} {i : Nat} (it : Item)
    {l : List Nat} (h : i ∉ l) :
    sumSizes (ainsert i it items) l = sumSizes items l := by
  refine sumSizes_congr fun u hu => ?_
  rw [itemOf_ainsert_ne _ _ (fun e => h (by rw [← e]; exact hu))]

theorem sumSizes_ainsert_mem {items : List (Nat × Item)} {i : Nat} (it : Item)
    {l : List Nat} (hnd : l.Nodup) (hmem : i ∈ l) :
    sumSizes (ainsert i it items) l = sumSizes items l + it.size - (itemOf items i).size := by
  induction l with
  | nil => simp at hmem
  | cons x rest ih =>
    obtain ⟨hx, hrest⟩ := List.nodup_cons.mp hnd
    rcases List.mem_cons.mp hmem with rfl | hmem'
    · rw [sumSizes_cons, sumSizes_cons, itemOf_ainsert_self, sumSizes_ainsert_not_mem it hx]
      ring
    · have hxi : x ≠ i := fun e => hx (e ▸ hmem')
      rw [sumSizes_cons, sumSizes_cons, itemOf_ainsert_ne _ _ hxi, ih hrest hmem']
      ring

theorem sortedDesc_congr {items items' : List (Nat × Item)} {l : List Nat}
    (h : ∀ u ∈ l, (itemOf items' u).sno = (itemOf items u).sno)
    (hs : SortedDesc items l) : SortedDesc items' l :=
  hs.imp_of_mem fun ha hb hr => by rw [h _ ha, h _ hb]; exact hr

/-- A heap write that does not change the item's key, size or series
number (the `time` refresh, for instance) preserves the invariant. -/
theorem inv_setItem {st : CState} {i : Nat} {it : Item} (hInv : Inv st)
    (hsno : it.sno = (st.item i).sno) (hsize : it.size = (st.item i).size)
    (hkey : it.key = (st.item i).key) : Inv (st.setItem i it) := by
  have hit : ∀ u, (st.setItem i it).item u = if u = i then it else st.item u := by
    intro u
    by_cases hu : u = i
    · subst hu
      rw [if_pos rfl]
      exact itemOf_ainsert_self _ _ _
    · rw [if_neg hu]
      exact itemOf_ainsert_ne _ _ hu
  have hsno' : ∀ u, ((st.setItem i it).item u).sno = (st.item u).sno := by
    intro u
    rw [hit u]
    by_cases hu : u = i <;> simp [hu, hsno]
  have hsize' : ∀ u, ((st.setItem i it).item u).size = (st.item u).size := by
    intro u
    rw [hit u]
    by_cases hu : u = i <;> simp [hu, hsize]
  have hkey' : ∀ u, ((st.setItem i it).item u).key = (st.item u).key := by
    intro u
    rw [hit u]
    by_cases hu : u = i <;> simp [hu, hkey]
  constructor
  · show st.totalSize = cacheSizes (st.setItem i it)
    rw [hInv.sizeEq, cacheSizes_eq_sumSizes, cacheSizes_eq_sumSizes]
    exact (sumSizes_congr fun u _ => hsize' u).symm
  · exact sortedDesc_congr (fun u _ => hsno' u) hInv.sorted
  · intro u hu
    rw [hsno' u]
    exact hInv.snoLt u hu
  · exact hInv.fresh
  · exact hInv.gkeys
  · exact hInv.tkeys
  · intro g tbl kid j hg hk
    rw [hkey' j]
    exact hInv.regKey g tbl kid j hg hk
  · exact hInv.regSub

/-- Promotion of an already-listed item preserves the invariant. -/
theorem inv_of_headSpec {st st₁ : CState} {t : Nat} (hspec : HeadSpec st st₁ t)
    (hInv : Inv st) (ht : t ∈ st.cache) : Inv st₁ := by
  obtain ⟨p1, p2, p3, p4, p5, p6, p7, p8, p9, p10, p11, p12, p13⟩ := hspec
  constructor
  · rw [p4, hInv.sizeEq, p13, if_pos ht]
    omega
  · exact p1
  · exact p2
  · intro u hu
    rw [p5]
    rcases (p12 u).mp hu with rfl | hu'
    · exact hInv.fresh u ht
    · exact hInv.fresh u hu'
  · rw [p3]
    exact hInv.gkeys
  · rw [p3]
    exact hInv.tkeys
  · intro g tbl kid j hg hk
    rw [p8 j]
    rw [p3] at hg
    exact hInv.regKey g tbl kid j hg hk
  · intro g tbl kid j hg hk
    rw [p3] at hg
    exact (p12 j).mpr (Or.inr (hInv.regSub g tbl kid j hg hk))

/-- `get` preserves the invariant. -/
theorem getOp_inv {now : Int} {st : CState} {k : JKey} {st' : CState} {v : JSValue}
    (h : getOp now st k = .ok (st', v)) (hInv : Inv st) : Inv st' := by
  rw [getOp] at h
  split at h
  · obtain ⟨rfl, rfl⟩ := Prod.mk.injEq .. ▸ Except.ok.inj h
    exact hInv
  · rename_i tbl hg
    split at h
    · obtain ⟨rfl, rfl⟩ := Prod.mk.injEq .. ▸ Except.ok.inj h
      exact hInv
    · rename_i i hk
      split at h
      · exact absurd h (by simp)
      · rename_i st₁ hth
        obtain ⟨rfl, rfl⟩ := Prod.mk.injEq .. ▸ Except.ok.inj h
        have hmem : i ∈ st.cache := hInv.regSub _ _ _ _ hg hk
        have hspec := toHead_ok hth hInv.sorted hInv.snoLt (by simp)
        have hInv₁ := inv_of_headSpec hspec hInv hmem
        exact inv_setItem hInv₁ rfl rfl rfl

/-- Postcondition of a completed `add`: the invariant holds again, the key
is registered to the returned handle, the handle's object carries the
added data and size, and it sits at the head of the list. -/
def AddSpec (st' : CState) (data : JSValue) (k : JKey) (size : Int) (i : Nat) : Prop :=
  Inv st' ∧
  (∃ tbl', alookup k.group st'.groups = some tbl' ∧ alookup k.id tbl' = some i) ∧
  (st'.item i).data = data ∧
  (st'.item i).size = size ∧
  st'.cache.head? = some i

theorem addInsert_ok {now : Int} {st : CState} {data : JSValue} {k : JKey} {size : Int}
    {tbl : GroupTable} {groups₀ : Groups} {st' : CState} {i : Nat}
    (h : addInsert now st data k size tbl groups₀ = .ok (st', i))
    (hInv : Inv st)
    (hg0keys : (keysOf groups₀).Nodup)
    (hg0ne : ∀ g', g' ≠ k.group → alookup g' groups₀ = alookup g' st.groups)
    (htbl : (keysOf tbl).Nodup)
    (htblreg : ∀ kid j, alookup kid tbl = some j →
      (st.item j).key = ⟨kid, k.group⟩ ∧ j ∈ st.cache) :
    AddSpec st' data k size i := by
  rw [addInsert] at h
  split at h
  · exact absurd h (by simp)
  · rename_i st₂ hth
    obtain ⟨rfl, rfl⟩ := Prod.mk.injEq .. ▸ Except.ok.inj h
    have hfresh : st.nextId ∉ st.cache := fun hmem => by
      have := hInv.fresh _ hmem
      omega
    set newItem : Item := { key := k, data := data, size := size, sno := 0, time := 0 } with hnew
    set st₁ : CState :=
      { st with groups := ainsert k.group (ainsert k.id st.nextId tbl) groups₀,
                items := ainsert st.nextId newItem st.items,
                nextId := st.nextId + 1,
                totalSize := st.totalSize + size } with hst₁
    have hsno₁ : ∀ u ∈ st₁.cache, (st₁.item u).sno = (st.item u).sno := by
      intro u hu
      have hne : u ≠ st.nextId := fun e => hfresh (e ▸ hu)
      show (itemOf (ainsert st.nextId newItem st.items) u).sno = _
      rw [itemOf_ainsert_ne _ _ hne]
      rfl
    have hsorted₁ : SortedDesc st₁.items st₁.cache := by
      refine sortedDesc_congr (fun u hu => ?_) hInv.sorted
      have hne : u ≠ st.nextId := fun e => hfresh (e ▸ hu)
      rw [itemOf_ainsert_ne _ _ hne]
    have hsnoLt₁ : ∀ u ∈ st₁.cache, (st₁.item u).sno < st₁.sN := by
      intro u hu
      rw [hsno₁ u hu]
      exact hInv.snoLt u hu
    obtain ⟨p1, p2, p3, p4, p5, p6, p7, p8, p9, p10, p11, p12, p13⟩ :=
      toHead_ok hth hsorted₁ hsnoLt₁ (fun _ => hfresh)
    have hi₁ : st₁.item st.nextId = newItem := itemOf_ainsert_self _ _ _
    have hiothers : ∀ u, u ≠ st.nextId → st₁.item u = st.item u := by
      intro u hu
      show itemOf (ainsert st.nextId newItem st.items) u = _
      rw [itemOf_ainsert_ne _ _ hu]
      rfl
    have hInv₂ : Inv st₂ := by
      constructor
      · rw [p4, p13]
        show st.totalSize + size = cacheSizes st₁ + _
        rw [if_neg hfresh, hi₁]
        have : cacheSizes st₁ = cacheSizes st := by
          rw [cacheSizes_eq_sumSizes, cacheSizes_eq_sumSizes]
          exact sumSizes_ainsert_not_mem _ hfresh
        rw [this, ← hInv.sizeEq]
      · exact p1
      · exact p2
      · intro u hu
        rw [p5]
        show u < st.nextId + 1
        rcases (p12 u).mp hu with rfl | hu'
        · omega
        · have := hInv.fresh u hu'
          omega
      · rw [p3]
        exact keysOf_nodup_ainsert _ hg0keys
      · rw [p3]
        intro g' tbl' hg'
        by_cases hgk : g' = k.group
        · subst hgk
          rw [alookup_ainsert_self] at hg'
          obtain rfl := Option.some.inj hg'
          exact keysOf_nodup_ainsert _ htbl
        · rw [alookup_ainsert_ne _ _ hgk, hg0ne g' hgk] at hg'
          exact hInv.tkeys g' tbl' hg'
      · intro g' tbl' kid j hg' hk'
        rw [p3] at hg'
        rw [p8 j]
        by_cases hgk : g' = k.group
        · subst hgk
          rw [alookup_ainsert_self] at hg'
          obtain rfl := Option.some.inj hg'
          by_cases hkid : kid = k.id
          · subst hkid
            rw [alookup_ainsert_self] at hk'
            obtain rfl := Option.some.inj hk'
            rw [hi₁]
          · rw [alookup_ainsert_ne _ _ hkid] at hk'
            obtain ⟨hkey, hmem⟩ := htblreg kid j hk'
            rw [hiothers j (fun e => hfresh (e ▸ hmem))]
            exact hkey
        · rw [alookup_ainsert_ne _ _ hgk, hg0ne g' hgk] at hg'
          have hmem := hInv.regSub g' tbl' kid j hg' hk'
          rw [hiothers j (fun e => hfresh (e ▸ hmem))]
          exact hInv.regKey g' tbl' kid j hg' hk'
      · intro g' tbl' kid j hg' hk'
        rw [p3] at hg'
        refine (p12 j).mpr ?_
        by_cases hgk : g' = k.group
        · subst hgk
          rw [alookup_ainsert_self] at hg'
          obtain rfl := Option.some.inj hg'
          by_cases hkid : kid = k.id
          · subst hkid
            rw [alookup_ainsert_self] at hk'
            obtain rfl := Option.some.inj hk'
            exact Or.inl rfl
          · rw [alookup_ainsert_ne _ _ hkid] at hk'
            exact Or.inr ((htblreg kid j hk').2)
        · rw [alookup_ainsert_ne _ _ hgk, hg0ne g' hgk] at hg'
          exact Or.inr (hInv.regSub g' tbl' kid j hg' hk')
    refine ⟨inv_setItem hInv₂ rfl rfl rfl, ⟨ainsert k.id st.nextId tbl, ?_, ?_⟩, ?_, ?_, ?_⟩
    · show alookup k.group st₂.groups = _
      rw [p3]
      exact alookup_ainsert_self _ _ _
    · exact alookup_ainsert_self _ _ _
    · show ((st₂.setItem st.nextId { st₂.item st.nextId with time := now }).item
        st.nextId).data = data
      show (itemOf (ainsert st.nextId { st₂.item st.nextId with time := now } st₂.items)
        st.nextId).data = data
      rw [itemOf_ainsert_self]
      show (st₂.item st.nextId).data = data
      rw [p10, hi₁]
    · show ((st₂.setItem st.nextId { st₂.item st.nextId with time := now }).item
        st.nextId).size = size
      show (itemOf (ainsert st.nextId { st₂.item st.nextId with time := now } st₂.items)
        st.nextId).size = size
      rw [itemOf_ainsert_self]
      show (st₂.item st.nextId).size = size
      rw [p9, hi₁]
    · exact p11

theorem addOp_ok {now : Int} {st : CState} {data : JSValue} {k : JKey} {size : Int}
    {st' : CState} {i : Nat}
    (h : addOp now st data k size = .ok (st', i)) (hInv : Inv st) :
    AddSpec st' data k size i := by
  rw [addOp] at h
  split at h
  case _ tbl hg =>
    split at h
    case _ j hk =>
      -- update path
      split at h
      · exact absurd h (by simp)
      · rename_i st₂ hth
        obtain ⟨rfl, rfl⟩ := Prod.mk.injEq .. ▸ Except.ok.inj h
        have hmem : j ∈ st.cache := hInv.regSub _ _ _ _ hg hk
        set st₁ : CState :=
          { st with totalSize := st.totalSize + (size - (st.item j).size),
                    items := ainsert j { st.item j with size := size, data := data }
                      st.items } with hst₁
        have hj₁ : st₁.item j = { st.item j with size := size, data := data } :=
          itemOf_ainsert_self _ _ _
        have hjothers : ∀ u, u ≠ j → st₁.item u = st.item u := by
          intro u hu
          show itemOf (ainsert j _ st.items) u = _
          rw [itemOf_ainsert_ne _ _ hu]
          rfl
        have hsno₁ : ∀ u, (st₁.item u).sno = (st.item u).sno := by
          intro u
          by_cases hu : u = j
          · subst hu
            rw [hj₁]
          · rw [hjothers u hu]
        have hInv₁ : Inv st₁ := by
          constructor
          · show st.totalSize + (size - (st.item j).size) = cacheSizes st₁
            rw [cacheSizes_eq_sumSizes]
            show _ = sumSizes (ainsert j _ st.items) st.cache
            rw [sumSizes_ainsert_mem _ hInv.sorted.nodup hmem]
            rw [← cacheSizes_eq_sumSizes, ← hInv.sizeEq]
            show _ = st.totalSize + size - (st.item j).size
            ring
          · exact sortedDesc_congr (fun u _ => hsno₁ u) hInv.sorted
          · intro u hu
            rw [hsno₁ u]
            exact hInv.snoLt u hu
          · exact hInv.fresh
          · exact hInv.gkeys
          · exact hInv.tkeys
          · intro g' tbl' kid j' hg' hk'
            by_cases hu : j' = j
            · subst hu
              rw [hj₁]
              exact hInv.regKey g' tbl' kid j' hg' hk'
            · rw [hjothers j' hu]
              exact hInv.regKey g' tbl' kid j' hg' hk'
          · exact hInv.regSub
        have hspec := toHead_ok hth hInv₁.sorted hInv₁.snoLt (by simp)
        have hInv₂ := inv_of_headSpec hspec hInv₁ hmem
        obtain ⟨p1, p2, p3, p4, p5, p6, p7, p8, p9, p10, p11, p12, p13⟩ := hspec
        refine ⟨inv_setItem hInv₂ rfl rfl rfl, ⟨tbl, ?_, hk⟩, ?_, ?_, ?_⟩
        · show alookup k.group st₂.groups = _
          rw [p3]
          exact hg
        · show (itemOf (ainsert j { st₂.item j with time := now } st₂.items) j).data = data
          rw [itemOf_ainsert_self]
          show (st₂.item j).data = data
          rw [p10, hj₁]
        · show (itemOf (ainsert j { st₂.item j with time := now } st₂.items) j).size = size
          rw [itemOf_ainsert_self]
          show (st₂.item j).size = size
          rw [p9, hj₁]
        · exact p11
    case _ hk =>
      -- insert into an existing group
      exact addInsert_ok h hInv hInv.gkeys (fun _ _ => rfl) (hInv.tkeys _ _ hg)
        (fun kid j hkj => ⟨hInv.regKey _ _ _ _ hg hkj, hInv.regSub _ _ _ _ hg hkj⟩)
  case _ hg =>
    -- group did not exist: it is created first
    refine addInsert_ok h hInv (keysOf_nodup_ainsert _ hInv.gkeys) ?_ (by simp [keysOf]) ?_
    · intro g' hne
      exact alookup_ainsert_ne _ _ hne
    · intro kid j hkj
      simp [alookup] at hkj

/-! ### `remove` preserves the invariant -/

theorem tombstone_inv {st : CState} {i : Nat} (hInv : Inv st) (hmem : i ∈ st.cache) :
    Inv (tombstone st i) ∧ (tombstone st i).groups = st.groups ∧
    (tombstone st i).cache = st.cache := by
  have hit : ∀ u, (tombstone st i).item u =
      if u = i then { st.item i with data := .undef, size := 0 } else st.item u := by
    intro u
    by_cases hu : u = i
    · subst hu
      rw [if_pos rfl]
      exact itemOf_ainsert_self _ _ _
    · rw [if_neg hu]
      exact itemOf_ainsert_ne _ _ hu
  have hsno : ∀ u, ((tombstone st i).item u).sno = (st.item u).sno := by
    intro u
    rw [hit u]
    by_cases hu : u = i <;> simp [hu]
  have hkey : ∀ u, ((tombstone st i).item u).key = (st.item u).key := by
    intro u
    rw [hit u]
    by_cases hu : u = i <;> simp [hu]
  refine ⟨?_, rfl, rfl⟩
  constructor
  · show st.totalSize - (st.item i).size = cacheSizes (tombstone st i)
    rw [cacheSizes_eq_sumSizes]
    show _ = sumSizes (ainsert i _ st.items) st.cache
    rw [sumSizes_ainsert_mem _ hInv.sorted.nodup hmem]
    simp only
    rw [← cacheSizes_eq_sumSizes, ← hInv.sizeEq]
    show _ = st.totalSize + 0 - (st.item i).size
    ring
  · exact sortedDesc_congr (fun u _ => hsno u) hInv.sorted
  · intro u hu
    rw [hsno u]
    exact hInv.snoLt u hu
  · exact hInv.fresh
  · exact hInv.gkeys
  · exact hInv.tkeys
  · intro g tbl kid j hg hk
    rw [hkey j]
    exact hInv.regKey g tbl kid j hg hk
  · exact hInv.regSub

/-- Replacing the group index by one whose bindings are a subset of the
old ones (with well-formed keys) preserves the invariant. -/
theorem inv_groups_shrink {st : CState} (gr' : Groups) (hInv : Inv st)
    (hkeys : (keysOf gr').Nodup)
    (hsub : ∀ g tbl', alookup g gr' = some tbl' → (keysOf tbl').Nodup ∧
      ∃ tbl, alookup g st.groups = some tbl ∧
        ∀ kid j, alookup kid tbl' = some j → alookup kid tbl = some j) :
    Inv { st with groups := gr' } := by
  constructor
  · exact hInv.sizeEq
  · exact hInv.sorted
  · exact hInv.snoLt
  · exact hInv.fresh
  · exact hkeys
  · intro g tbl' hg
    exact (hsub g tbl' hg).1
  · intro g tbl' kid j hg hk
    obtain ⟨-, tbl, hgt, hbind⟩ := hsub g tbl' hg
    exact hInv.regKey g tbl kid j hgt (hbind kid j hk)
  · intro g tbl' kid j hg hk
    obtain ⟨-, tbl, hgt, hbind⟩ := hsub g tbl' hg
    exact hInv.regSub g tbl kid j hgt (hbind kid j hk)

theorem tombstoneFold_inv (ps : List (Option Nat × Nat)) :
    ∀ st : CState, Inv st → (∀ p ∈ ps, p.2 ∈ st.cache) →
      Inv (ps.foldl (fun acc p => tombstone acc p.2) st) ∧
      (ps.foldl (fun acc p => tombstone acc p.2) st).groups = st.groups ∧
      (ps.foldl (fun acc p => tombstone acc p.2) st).cache = st.cache := by
  induction ps with
  | nil => exact fun st h _ => ⟨h, rfl, rfl⟩
  | cons p rest ih =>
    intro st hInv hmem
    simp only [List.foldl_cons]
    obtain ⟨ti, tg, tc⟩ := tombstone_inv hInv (hmem p (List.mem_cons_self _ _))
    obtain ⟨r1, r2, r3⟩ := ih (tombstone st p.2) ti
      (fun q hq => tc ▸ hmem q (List.mem_cons_of_mem _ hq))
    exact ⟨r1, by rw [r2, tg], by rw [r3, tc]⟩

theorem removeStep_inv {st : CState} (k : JKey) (hInv : Inv st) : Inv (removeStep st k) := by
  rw [removeStep]
  split
  · split
    · exact hInv
    · rename_i tbl hg
      split
      · exact hInv
      · rename_i i hk
        have hmem := hInv.regSub _ _ _ _ hg hk
        obtain ⟨ti, tg, tc⟩ := tombstone_inv hInv hmem
        have hname : ∀ gr', gr' = { tombstone st i with groups := gr' }.groups := fun _ => rfl
        have hbase : { tombstone st i with
            groups := if adelete k.id tbl = [] then adelete k.group st.groups
                      else ainsert k.group (adelete k.id tbl) st.groups } =
            { tombstone st i with
              groups := if adelete k.id tbl = [] then adelete k.group (tombstone st i).groups
                        else ainsert k.group (adelete k.id tbl) (tombstone st i).groups } := by
          rw [tg]
        rw [hbase]
        split
        · refine inv_groups_shrink _ ti (keysOf_nodup_adelete (tg ▸ hInv.gkeys)) ?_
          intro g tbl' hg'
          by_cases hgk : g = k.group
          · subst hgk
            rw [alookup_adelete_self] at hg'
            exact absurd hg' (by simp)
          · rw [alookup_adelete_ne _ hgk] at hg'
            rw [tg] at hg'
            refine ⟨hInv.tkeys g tbl' hg', tbl', by rw [tg]; exact hg', fun _ _ h => h⟩
        · refine inv_groups_shrink _ ti (keysOf_nodup_ainsert _ (tg ▸ hInv.gkeys)) ?_
          intro g tbl' hg'
          by_cases hgk : g = k.group
          · subst hgk
            rw [alookup_ainsert_self] at hg'
            obtain rfl := Option.some.inj hg'
            refine ⟨keysOf_nodup_adelete (hInv.tkeys _ _ hg), tbl, by rw [tg]; exact hg, ?_⟩
            intro kid j hkj
            by_cases hkid : kid = k.id
            · subst hkid
              rw [alookup_adelete_self] at hkj
              exact absurd hkj (by simp)
            · rwa [alookup_adelete_ne _ hkid] at hkj
          · rw [alookup_ainsert_ne _ _ hgk] at hg'
            rw [tg] at hg'
            refine ⟨hInv.tkeys g tbl' hg', tbl', by rw [tg]; exact hg', fun _ _ h => h⟩
  · -- whole-group removal
    have hmem : ∀ p ∈ (alookup k.group st.groups).getD [], p.2 ∈ st.cache := by
      intro p hp
      cases hg : alookup k.group st.groups with
      | none => rw [hg] at hp; simp at hp
      | some tbl =>
        rw [hg] at hp
        simp only [Option.getD_some] at hp
        have hl : alookup p.1 tbl = some p.2 := mem_alookup (hInv.tkeys _ _ hg) hp
        exact hInv.regSub _ _ _ _ hg hl
    set stf := ((alookup k.group st.groups).getD []).foldl
      (fun acc p => tombstone acc p.2) st with hstf
    obtain ⟨fi, fg, fc⟩ := tombstoneFold_inv _ st hInv hmem
    rw [← hstf] at fi fg fc
    have hbase : { stf with groups := adelete k.group st.groups } =
        { stf with groups := adelete k.group stf.groups } := by
      rw [fg]
    rw [hbase]
    have hkeys2 : (keysOf (adelete k.group stf.groups)).Nodup := by
      rw [fg]
      exact keysOf_nodup_adelete hInv.gkeys
    refine inv_groups_shrink _ fi hkeys2 ?_
    intro g tbl' hg'
    by_cases hgk : g = k.group
    · subst hgk
      rw [alookup_adelete_self] at hg'
      exact absurd hg' (by simp)
    · rw [alookup_adelete_ne _ hgk, fg] at hg'
      refine ⟨hInv.tkeys g tbl' hg', tbl', by rw [fg]; exact hg', fun _ _ h => h⟩

/-! ### `prune` preserves the invariant -/

/-- One binding of the group index: `groups[g][kid] == item j`. -/
def Bind (gr : Groups) (g : Nat) (kid : Option Nat) (j : Nat) : Prop :=
  ∃ tbl, alookup g gr = some tbl ∧ alookup kid tbl = some j

/-- Well-formedness of the raw group index: unique group names and unique
ids inside every table. -/
def GroupsWF (gr : Groups) : Prop :=
  (keysOf gr).Nodup ∧ ∀ g tbl, alookup g gr = some tbl → (keysOf tbl).Nodup

theorem bind_after_delete {gr : Groups} {g : Nat} {kid : Option Nat} {tbl : GroupTable}
    (hg : alookup g gr = some tbl) :
    (∀ g' kid' j, Bind (ainsert g (adelete kid tbl) gr) g' kid' j → Bind gr g' kid' j) ∧
    (∀ j, ¬Bind (ainsert g (adelete kid tbl) gr) g kid j) ∧
    (GroupsWF gr → GroupsWF (ainsert g (adelete kid tbl) gr)) := by
  refine ⟨?_, ?_, ?_⟩
  · rintro g' kid' j ⟨tbl', hg', hk'⟩
    by_cases hgg : g' = g
    · subst hgg
      rw [alookup_ainsert_self] at hg'
      obtain rfl := Option.some.inj hg'
      by_cases hkk : kid' = kid
      · subst hkk
        rw [alookup_adelete_self] at hk'
        exact absurd hk' (by simp)
      · rw [alookup_adelete_ne _ hkk] at hk'
        exact ⟨tbl, hg, hk'⟩
    · rw [alookup_ainsert_ne _ _ hgg] at hg'
      exact ⟨tbl', hg', hk'⟩
  · rintro j ⟨tbl', hg', hk'⟩
    rw [alookup_ainsert_self] at hg'
    obtain rfl := Option.some.inj hg'
    rw [alookup_adelete_self] at hk'
    exact absurd hk' (by simp)
  · rintro ⟨wk, wt⟩
    refine ⟨keysOf_nodup_ainsert _ wk, ?_⟩
    intro g' tbl' hg'
    by_cases hgg : g' = g
    · subst hgg
      rw [alookup_ainsert_self] at hg'
      obtain rfl := Option.some.inj hg'
      exact keysOf_nodup_adelete (wt _ tbl hg)
    · rw [alookup_ainsert_ne _ _ hgg] at hg'
      exact wt g' tbl' hg'

theorem pruneLoop_ok {items : List (Nat × Item)} {bound : Item → Int → Bool} :
    ∀ (rev : List Nat) (gr : Groups) (total : Int) (cnt0 : Nat) (pr0 : List Nat)
      {gr' : Groups} {total' : Int} {cnt' : Nat} {pr' : List Nat},
      pruneLoop items bound rev gr total cnt0 pr0 = .ok (gr', total', cnt', pr') →
      ∃ m : Nat, cnt' = cnt0 + m ∧ m ≤ rev.length ∧
        total' = total - sumSizes items (rev.take m) ∧
        (∀ g kid j, Bind gr' g kid j → Bind gr g kid j) ∧
        (∀ x ∈ rev.take m, ∀ j,
          ¬Bind gr' (itemOf items x).key.group (itemOf items x).key.id j) ∧
        (GroupsWF gr → GroupsWF gr') ∧
        (m = rev.length ∨ ∃ x, bound (itemOf items x) total' = false) := by
  intro rev
  induction rev with
  | nil =>
    intro gr total cnt0 pr0 gr' total' cnt' pr' h
    rw [pruneLoop] at h
    have h2 : (gr, total, cnt0, pr0) = (gr', total', cnt', pr') := Except.ok.inj h
    obtain ⟨rfl, rfl, rfl, rfl⟩ := Prod.mk.injEq .. ▸ h2
    refine ⟨0, by omega, by omega, by simp [sumSizes], fun _ _ _ h => h, ?_, fun w => w,
      Or.inl rfl⟩
    intro x hx
    simp at hx
  | cons x rest ih =>
    intro gr total cnt0 pr0 gr' total' cnt' pr' h
    rw [pruneLoop] at h
    split at h
    · -- bound holds for the tail item
      split at h
      · exact absurd h (by simp)
      · rename_i tbl hgx
        obtain ⟨m', hc, hl, ht, hs, hd, hw, hstop⟩ := ih _ _ _ _ h
        obtain ⟨bsub, bdel, bwf⟩ := bind_after_delete hgx
        refine ⟨m' + 1, by omega, by simp only [List.length_cons]; omega, ?_, ?_, ?_, ?_, ?_⟩
        · rw [show (x :: rest).take (m' + 1) = x :: rest.take m' from rfl, sumSizes_cons]
          omega
        · exact fun g kid j hb => bsub g kid j (hs g kid j hb)
        · intro y hy j hb
          rw [show (x :: rest).take (m' + 1) = x :: rest.take m' from rfl] at hy
          rcases List.mem_cons.mp hy with rfl | hy'
          · exact bdel j (hs _ _ j hb)
          · exact hd y hy' j hb
        · exact fun w => hw (bwf w)
        · rcases hstop with he | hx
          · left
            simp only [List.length_cons]
            omega
          · exact Or.inr hx
    · -- bound fails: the loop stops
      rename_i hbf
      have h2 : (gr, total, cnt0, pr0) = (gr', total', cnt', pr') := Except.ok.inj h
      refine ?_
      obtain ⟨rfl, rfl, rfl, rfl⟩ := Prod.mk.injEq .. ▸ h2
      refine ⟨0, by omega, by omega, by simp [sumSizes], fun _ _ _ h => h, ?_, fun w => w, ?_⟩
      · intro y hy
        simp at hy
      · right
        exact ⟨x, by simpa using hbf⟩

theorem cleanup_lookup {names : List Nat} :
    ∀ (gr : Groups) (g : Nat) (tbl' : GroupTable),
      alookup g (cleanupGroups names gr) = some tbl' → alookup g gr = some tbl' := by
  induction names with
  | nil => exact fun _ _ _ h => h
  | cons n rest ih =>
    intro gr g tbl' h
    rw [cleanupGroups] at h
    have step := ih _ g tbl' h
    split at step
    · rename_i tbln hn
      split at step
      · by_cases hgn : g = n
        · subst hgn
          rw [alookup_adelete_self] at step
          exact absurd step (by simp)
        · rwa [alookup_adelete_ne _ hgn] at step
      · exact step
    · exact step

theorem cleanup_keys_nodup {names : List Nat} :
    ∀ (gr : Groups), (keysOf gr).Nodup → (keysOf (cleanupGroups names gr)).Nodup := by
  induction names with
  | nil => exact fun _ h => h
  | cons n rest ih =>
    intro gr h
    rw [cleanupGroups]
    refine ih _ ?_
    split
    · split
      · exact keysOf_nodup_adelete h
      · exact h
    · exact h

theorem sumSizes_reverse (items : List (Nat × Item)) (l : List Nat) :
    sumSizes items l.reverse = sumSizes items l := by
  simp [sumSizes, List.map_reverse, List.sum_reverse]

/-- A completed prune pass preserves the invariant. -/
theorem pruneStep_inv {bound : Item → Int → Bool} {st st' : CState}
    (h : pruneStep bound st = .ok st') (hInv : Inv st) : Inv st' := by
  rw [pruneStep] at h
  split at h
  · exact absurd h (by simp)
  case _ gr' total' cnt pruned heqL =>
    obtain rfl := Except.ok.inj h
    obtain ⟨m, hm0, hmlen, htot, hsub, hdel, hwf, -⟩ :=
      pruneLoop_ok st.cache.reverse st.groups st.totalSize 0 [] heqL
    obtain rfl : m = cnt := by omega
    rw [List.length_reverse] at hmlen
    set len := st.cache.length with hlen
    have hdroplen : (st.cache.drop (len - m)).length = m := by
      rw [List.length_drop]
      omega
    have hrevsplit : st.cache.reverse =
        (st.cache.drop (len - m)).reverse ++ (st.cache.take (len - m)).reverse := by
      rw [← List.reverse_append, List.take_append_drop]
    have htakerev : st.cache.reverse.take m = (st.cache.drop (len - m)).reverse := by
      rw [hrevsplit]
      exact List.take_left' (by rw [List.length_reverse, hdroplen])
    have hWF : GroupsWF gr' := hwf ⟨hInv.gkeys, hInv.tkeys⟩
    have hmemdrop : ∀ j, j ∈ st.cache.drop (len - m) → j ∈ st.cache.reverse.take m := by
      intro j hj
      rw [htakerev, List.mem_reverse]
      exact hj
    constructor
    · -- size accounting
      show total' = cacheSizes _
      rw [htot, htakerev, sumSizes_reverse]
      have hsplit := (List.take_append_drop (len - m) st.cache).symm
      have hparts : cacheSizes st = sumSizes st.items (st.cache.take (len - m)) +
          sumSizes st.items (st.cache.drop (len - m)) := by
        rw [cacheSizes_eq_sumSizes]
        conv_lhs => rw [hsplit]
        exact sumSizes_append _ _ _
      have htots := hInv.sizeEq
      rw [hparts] at htots
      show _ = sumSizes st.items (st.cache.take (len - m))
      omega
    · exact (hInv.sorted).sublist (List.take_sublist _ _)
    · intro u hu
      exact hInv.snoLt u ((List.take_sublist _ _).mem hu)
    · intro u hu
      exact hInv.fresh u ((List.take_sublist _ _).mem hu)
    · exact cleanup_keys_nodup _ hWF.1
    · intro g tbl hg
      exact hWF.2 g tbl (cleanup_lookup _ g tbl hg)
    · intro g tbl kid j hg hk
      obtain ⟨tbl0, hg0, hk0⟩ := hsub g kid j ⟨tbl, cleanup_lookup _ g tbl hg, hk⟩
      exact hInv.regKey g tbl0 kid j hg0 hk0
    · intro g tbl kid j hg hk
      have hbind2 : Bind gr' g kid j := ⟨tbl, cleanup_lookup _ g tbl hg, hk⟩
      obtain ⟨tbl0, hg0, hk0⟩ := hsub g kid j hbind2
      have hjmem : j ∈ st.cache := hInv.regSub g tbl0 kid j hg0 hk0
      have hkeyj : (st.item j).key = ⟨kid, g⟩ := hInv.regKey g tbl0 kid j hg0 hk0
      have hnotdrop : j ∉ st.cache.drop (len - m) := by
        intro hj
        have hx := hdel j (hmemdrop j hj) j
        apply hx
        show Bind gr' (st.item j).key.group (st.item j).key.id j
        rw [hkeyj]
        exact hbind2
      show j ∈ st.cache.take (len - m)
      have hsplit := (List.take_append_drop (len - m) st.cache).symm
      rw [hsplit] at hjmem
      rcases List.mem_append.mp hjmem with h1 | h1
      · exact h1
      · exact absurd h1 hnotdrop

/-! ### Reachable states -/

theorem runOp_inv {bound : Item → Int → Bool} {st : CState} {op : Op} {st' : CState}
    (h : runOp bound st op = .ok st') (hInv : Inv st) : Inv st' := by
  cases op with
  | add now data k size =>
    rw [runOp] at h
    cases ha : addOp now st data k size with
    | error e =>
      rw [ha] at h
      exact absurd h (by simp [Except.map])
    | ok p =>
      obtain ⟨st₀, i⟩ := p
      rw [ha] at h
      obtain rfl : st₀ = st' := by simpa [Except.map] using h
      exact (addOp_ok ha hInv).1
  | get now k =>
    rw [runOp] at h
    cases ha : getOp now st k with
    | error e =>
      rw [ha] at h
      exact absurd h (by simp [Except.map])
    | ok p =>
      obtain ⟨st₀, v⟩ := p
      rw [ha] at h
      obtain rfl : st₀ = st' := by simpa [Except.map] using h
      exact getOp_inv ha hInv
  | removeP k =>
    rw [runOp] at h
    obtain rfl := Except.ok.inj h
    exact removeStep_inv k hInv
  | pruneP =>
    exact pruneStep_inv h hInv

theorem runOps_inv {bound : Item → Int → Bool} :
    ∀ (ops : List Op) (st st' : CState), Inv st →
      runOps bound ops st = .ok st' → Inv st' := by
  intro ops
  induction ops with
  | nil =>
    intro st st' hInv h
    rw [runOps] at h
    obtain rfl := Except.ok.inj h
    exact hInv
  | cons op rest ih =>
    intro st st' hInv h
    rw [runOps] at h
    split at h
    · exact absurd h (by simp)
    · rename_i st₀ hop
      exact ih st₀ st' (runOp_inv hop hInv) h

/-! ### Totality of promotion under series capacity -/

theorem renumberRev_total {sEnd : Int} (items : List (Nat × Item)) :
    ∀ (rev : List Nat) (n : Int), (∀ j : Nat, j < rev.length → n + j ≠ sEnd) →
      ∃ items', renumberRev sEnd items rev n = .ok (items', n + rev.length) := by
  intro rev
  induction rev generalizing items with
  | nil =>
    intro n _
    exact ⟨items, by simp [renumberRev]⟩
  | cons x rest ih =>
    intro n hcap
    have hn : n ≠ sEnd := by
      have := hcap 0 (by simp)
      simpa using this
    obtain ⟨items', hrec⟩ := ih (ainsert x { itemOf items x with sno := n } items) (n + 1)
      (fun j hj => by
        have := hcap (j + 1) (by simp only [List.length_cons]; omega)
        push_cast at this ⊢
        omega)
    refine ⟨items', ?_⟩
    rw [renumberRev, seriesNext, if_neg hn]
    have hlen : n + (((x :: rest).length : Nat) : Int) = n + 1 + (rest.length : Int) := by
      simp only [List.length_cons]
      push_cast
      ring
    rw [hlen]
    exact hrec

/-- Positional description of the catch-block renumbering over the cache
list: the tail gets `sStart`, the head `sStart + length - 1`, everything
off the list is untouched, and the counter ends at `sStart + length`. -/
theorem renumber_cache_pos {st : CState} {items' : List (Nat × Item)} {n₁ : Int}
    (hren : renumberRev st.sEnd st.items st.cache.reverse st.sStart = .ok (items', n₁))
    (hnd : st.cache.Nodup) :
    n₁ = st.sStart + st.cache.length ∧
    (∀ u, u ∉ st.cache → alookup u items' = alookup u st.items) ∧
    (∀ (j : Nat) (hj : j < st.cache.length),
      itemOf items' (st.cache.get ⟨j, hj⟩) =
        { st.item (st.cache.get ⟨j, hj⟩) with
          sno := st.sStart + ((st.cache.length - 1 - j : Nat) : Int) }) := by
  obtain ⟨r1, r2, r3⟩ := renumberRev_ok hren (List.nodup_reverse.mpr hnd)
  rw [List.length_reverse] at r1
  refine ⟨r1, fun u hu => r2 u (by rwa [List.mem_reverse]), ?_⟩
  intro j hj
  have hj' : st.cache.length - 1 - j < st.cache.reverse.length := by
    rw [List.length_reverse]
    omega
  have hpos := r3 (st.cache.length - 1 - j) hj'
  rw [List.get_reverse st.cache j hj' hj] at hpos
  rw [hpos]
  rfl

theorem toHead_total {st : CState} (t : Nat) (move : Bool)
    (hcap : (st.cache.length : Int) < st.sEnd - st.sStart) :
    ∃ st', toHead st t move = .ok st' := by
  have hcap1 : ∀ j : Nat, j < st.cache.reverse.length → st.sStart + (j : Int) ≠ st.sEnd := by
    intro j hj he
    rw [List.length_reverse] at hj
    omega
  have hsno : ∃ st₁, assignSno st t = .ok st₁ := by
    cases he : assignSno st t with
    | ok st₁ => exact ⟨st₁, rfl⟩
    | error e =>
      exfalso
      by_cases hn : st.sN = st.sEnd
      · obtain ⟨items', hren⟩ := renumberRev_total st.items st.cache.reverse st.sStart hcap1
        have hn1 : ¬st.sStart + ((st.cache.reverse.length : Nat) : Int) = st.sEnd := by
          rw [List.length_reverse]
          intro he'
          omega
        simp only [assignSno, seriesNext, if_pos hn, hren, if_neg hn1] at he
        exact Except.noConfusion he
      · simp only [assignSno, seriesNext, if_neg hn] at he
        exact Except.noConfusion he
  obtain ⟨st₁, hs⟩ := hsno
  by_cases hi : (if move then indexOfItem st.items st.cache t else -1) = 0
  · refine ⟨st, ?_⟩
    rw [toHead, if_pos hi]
  · have hred : toHead st t move =
        if (if move then indexOfItem st.items st.cache t else -1) > -1
        then Except.ok { st₁ with cache := t ::
          (st₁.cache.take (if move then indexOfItem st.items st.cache t else -1).toNat ++
           st₁.cache.drop ((if move then indexOfItem st.items st.cache t else -1).toNat + 1)) }
        else Except.ok { st₁ with cache := t :: st₁.cache } := by
      rw [toHead, if_neg hi, hs]
    by_cases hgt : (if move then indexOfItem st.items st.cache t else -1) > -1
    · rw [if_pos hgt] at hred
      exact ⟨_, hred⟩
    · rw [if_neg hgt] at hred
      exact ⟨_, hred⟩

theorem getOp_total (now : Int) {st : CState} (k : JKey)
    (hcap : (st.cache.length : Int) < st.sEnd - st.sStart) :
    ∃ r, getOp now st k = .ok r := by
  cases he : getOp now st k with
  | ok r => exact ⟨r, rfl⟩
  | error e =>
    exfalso
    cases hg : alookup k.group st.groups with
    | none =>
      simp only [getOp, hg] at he
      exact Except.noConfusion he
    | some tbl =>
      cases hk : alookup k.id tbl with
      | none =>
        simp only [getOp, hg, hk] at he
        exact Except.noConfusion he
      | some i =>
        obtain ⟨st₁, hth⟩ := toHead_total i true hcap
        simp only [getOp, hg, hk, hth] at he
        exact Except.noConfusion he

theorem addOp_total (now : Int) {st : CState} (data : JSValue) (k : JKey) (size : Int)
    (hcap : (st.cache.length : Int) < st.sEnd - st.sStart) :
    ∃ r, addOp now st data k size = .ok r := by
  have hins : ∀ (tbl : GroupTable) (groups₀ : Groups) (e : Unit),
      addInsert now st data k size tbl groups₀ ≠ .error e := by
    intro tbl groups₀ e he2
    obtain ⟨st₁, hth⟩ := @toHead_total { st with
      groups := ainsert k.group (ainsert k.id st.nextId tbl) groups₀,
      items := ainsert st.nextId
        { key := k, data := data, size := size, sno := 0, time := 0 } st.items,
      nextId := st.nextId + 1,
      totalSize := st.totalSize + size } st.nextId false hcap
    simp only [addInsert, hth] at he2
    exact Except.noConfusion he2
  cases he : addOp now st data k size with
  | ok r => exact ⟨r, rfl⟩
  | error e =>
    exfalso
    cases hg : alookup k.group st.groups with
    | none =>
      simp only [addOp, hg] at he
      exact hins _ _ _ he
    | some tbl =>
      cases hk : alookup k.id tbl with
      | none =>
        simp only [addOp, hg, hk] at he
        exact hins _ _ _ he
      | some i =>
        obtain ⟨st₁, hth⟩ := @toHead_total { st with
          totalSize := st.totalSize + (size - (st.item i).size),
          items := ainsert i { st.item i with size := size, data := data } st.items }
          i true hcap
        simp only [addOp, hg, hk, hth] at he
        exact Except.noConfusion he

/-! ### Reading at the head of the list -/

/-- A `get` that hits the current head is pure bookkeeping: `toHead`
early-returns, so only the item's `time` is refreshed and its data is
returned; the list, the series counter and every `sno` stay untouched. -/
theorem getOp_at_head {now : Int} {st : CState} {k : JKey} {i : Nat} {tbl : GroupTable}
    (hsorted : SortedDesc st.items st.cache)
    (hg : alookup k.group st.groups = some tbl)
    (hk : alookup k.id tbl = some i)
    (hhead : st.cache.head? = some i) :
    getOp now st k = .ok (st.setItem i { st.item i with time := now }, (st.item i).data) := by
  have hidx : indexOfItem st.items st.cache i = 0 := by
    rw [indexOfItem_eq _ _ hsorted]
    refine jsIndexOf_get hsorted.nodup ?_
    rw [jsNth_eq_some]
    refine ⟨le_refl 0, ?_⟩
    rw [show ((0 : Int)).toNat = 0 from rfl, List.get?_zero]
    exact hhead
  have hth : toHead st i true = .ok st := by
    rw [toHead]
    have hcond : (if true = true then indexOfItem st.items st.cache i else -1) = 0 := by
      simpa using hidx
    rw [if_pos hcond]
  have hdata : ((st.setItem i { st.item i with time := now }).item i).data =
      (st.item i).data := by
    show (itemOf (ainsert i { st.item i with time := now } st.items) i).data = _
    rw [itemOf_ainsert_self]
  have hgoal : getOp now st k =
      .ok (st.setItem i { st.item i with time := now },
           ((st.setItem i { st.item i with time := now }).item i).data) := by
    simp only [getOp, hg, hk, hth]
  rw [hgoal, hdata]

/-! ### The claims -/

/-- C1, counterexample: a cache holding exactly one live entry of size 5
under `createWithMaxSize 3` is emptied by the prune pass — the lone
oversized entry is evicted, contradicting the claim's final clause. -/
theorem C1_lone_oversized_evicted :
    (runOps (maxSizeBound 3) [.add 0 (.str "x") ⟨some 1, 1⟩ 5]
        (initState seriesStart seriesEnd)).map (fun st => (st.cache, st.totalSize)) =
      .ok ([0], 5) ∧
    (runOps (maxSizeBound 3) [.add 0 (.str "x") ⟨some 1, 1⟩ 5, .pruneP]
        (initState seriesStart seriesEnd)).map (fun st => (st.cache, st.totalSize)) =
      .ok ([], 0) :=
  ⟨rfl, rfl⟩

/-- C1 (amended): after any completed prune pass under the max-size bound
with `0 ≤ M`, the aggregate size is at most `M` — unconditionally: the loop
runs until the bound condition fails or the list is exhausted, so a lone
oversized entry is evicted (the pass may empty the cache). -/
theorem C1_prune_bounds_total {M : Int} {st st' : CState}
    (h : pruneStep (maxSizeBound M) st = .ok st') (hInv : Inv st) (hM : 0 ≤ M) :
    st'.totalSize ≤ M := by
  rw [pruneStep] at h
  split at h
  · exact absurd h (by simp)
  case _ gr' total' cnt pruned heqL =>
    obtain rfl := Except.ok.inj h
    obtain ⟨m, hm0, hmlen, htot, -, -, -, hstop⟩ :=
      pruneLoop_ok st.cache.reverse st.groups st.totalSize 0 [] heqL
    show total' ≤ M
    rcases hstop with hall | ⟨x, hx⟩
    · rw [hall, List.take_length, sumSizes_reverse] at htot
      have hsz := hInv.sizeEq
      rw [cacheSizes_eq_sumSizes] at hsz
      omega
    · simp only [maxSizeBound, decide_eq_false_iff_not, not_lt] at hx
      exact hx

/-- C2, the throw: `add` twice in different groups, `remove` the first
item's key (which deletes its group, leaving the tombstone on the list),
then let the pruning pass run under `createWithMaxSize 3`.  The pass
reaches the tombstone at the tail, reads `groups[key.group]` as
`undefined`, and `delete group[key.id]` raises a `TypeError` — the
deferred pass is not total, contradicting the claim. -/
theorem C2_prune_after_group_delete_throws :
    runOps (maxSizeBound 3)
      [.add 0 (.str "a") ⟨some 1, 1⟩ 5, .add 0 (.str "b") ⟨some 1, 2⟩ 5,
       .removeP ⟨some 1, 1⟩, .pruneP]
      (initState seriesStart seriesEnd) = .error () :=
  rfl

/-- C3, counterexample: `add` with data `0` leaves a live, registered,
never-tombstoned entry on the list (its binding and its stored data are
intact), yet `has` reports `false`, because `has` tests `!!(item &&
item.data)` and `0` is falsy. -/
theorem C3_falsy_data_reads_absent :
    (runOps (maxSizeBound 100) [.add 0 (.num 0) ⟨some 1, 1⟩ 1]
        (initState seriesStart seriesEnd)).map
      (fun st => (hasKey st ⟨some 1, 1⟩, st.cache, alookup 1 st.groups,
                  (st.item 0).data)) =
      .ok (false, [0], some [(some 1, 0)], .num 0) :=
  rfl

/-- C3 (amended): after a completed `add data key size` from any reachable
state, `has key` returns the JS truthiness of `data` — `true` exactly for
truthy data, and `false` for `null`, `0`, `false`, `""` or `undefined`
even though the entry is live. -/
theorem C3_has_after_add {now : Int} {st : CState} {data : JSValue} {k : JKey}
    {size : Int} {st' : CState} {i : Nat}
    (h : addOp now st data k size = .ok (st', i)) (hInv : Inv st) :
    hasKey st' k = data.truthy := by
  obtain ⟨-, ⟨tbl', hg', hk'⟩, hdata, -, -⟩ := addOp_ok h hInv
  simp only [hasKey, hg', hk', hdata]

/-- C4, counterexample: with the test range `[0, 3)` three `add`s exhaust
the series, and the next `get` of a non-head key overflows inside the
catch block's renumbering (3 live entries need 3 numbers, then the
promoted item needs a fourth): the `"SeriesOverflow"` throw escapes to the
caller of `get`, contradicting "no overflow error ever escapes". -/
theorem C4_overflow_escapes_at_capacity :
    runOps (maxSizeBound 1000)
      [.add 0 (.str "a") ⟨some 1, 1⟩ 1, .add 0 (.str "b") ⟨some 2, 1⟩ 1,
       .add 0 (.str "c") ⟨some 3, 1⟩ 1, .get 0 ⟨some 1, 1⟩]
      (initState 0 3) = .error () :=
  rfl

/-- C4 (amended): overflow is absorbed whenever the live list is strictly
shorter than the configured range: from any state with
`cache.length < sEnd - sStart` (in particular with the counter already at
the overflow point), `get` and `add` of any key always complete normally —
no series error escapes. -/
theorem C4_overflow_absorbed_under_capacity {now : Int} {st : CState} (k : JKey)
    (hcap : (st.cache.length : Int) < st.sEnd - st.sStart) :
    (∃ r, getOp now st k = .ok r) ∧
    ∀ (data : JSValue) (size : Int), ∃ r, addOp now st data k size = .ok r :=
  ⟨getOp_total now k hcap, fun data size => addOp_total now data k size hcap⟩

/-- C5: on a cache list with strictly descending series numbers,
`indexOfItem` returns an index holding exactly the searched item when the
item is on the list, and `-1` when it is absent — never a non-matching
slot — covering both the linear path (length < 20) and the binary-search
path (length ≥ 20), which the statement's hypotheses do not restrict. -/
theorem C5_locate_correct {items : List (Nat × Item)} {c : List Nat} (t : Nat)
    (hs : SortedDesc items c) :
    (t ∈ c → jsNth c (indexOfItem items c t) = some t) ∧
    (t ∉ c → indexOfItem items c t = -1) := by
  rw [indexOfItem_eq items t hs]
  exact ⟨fun hm => (jsIndexOf_mem hm).2, fun hm => jsIndexOf_of_not_mem hm⟩

/-- C6: add-then-get round trip — a completed `add data key size` from any
reachable state followed by `get key` in the same turn (no deferred pass in
between) returns exactly `data`. -/
theorem C6_round_trip {now : Int} {st : CState} {data : JSValue} {k : JKey}
    {size : Int} {st' : CState} {i : Nat} (now₂ : Int)
    (h : addOp now st data k size = .ok (st', i)) (hInv : Inv st) :
    ∃ st₂, getOp now₂ st' k = .ok (st₂, data) := by
  obtain ⟨hInv', ⟨tbl', hg', hk'⟩, hdata, -, hhead⟩ := addOp_ok h hInv
  refine ⟨st'.setItem i { st'.item i with time := now₂ }, ?_⟩
  rw [getOp_at_head hInv'.sorted hg' hk' hhead, hdata]

/-- C7, counterexample: when the live list length equals the range size,
the renumbering itself overflows — with range `[0, 3)` and three live
entries, promoting a non-head entry throws instead of renumbering, so the
claimed order-preserving renumbering does not always happen. -/
theorem C7_renumber_throws_at_capacity :
    toHead
      { items := [(0, ⟨⟨some 1, 1⟩, .str "a", 1, 0, 0⟩),
                  (1, ⟨⟨some 2, 1⟩, .str "b", 1, 1, 0⟩),
                  (2, ⟨⟨some 3, 1⟩, .str "c", 1, 2, 0⟩)],
        nextId := 3, groups := [(1, [(some 1, 0), (some 2, 1), (some 3, 2)])],
        cache := [2, 1, 0], totalSize := 3, sN := 3, sStart := 0, sEnd := 3 }
      0 true = .error () :=
  rfl

/-- C7 (amended): when a promotion of an on-list, non-head entry hits
series overflow and the live list is strictly shorter than the range, the
renumbering completes and is exactly order-preserving: list position `j`
(head = most recent) receives `sStart + (length - 1 - j)` — fresh
consecutive values in current list order — the promoted entry ends at the
head with `sStart + length`, strictly above every other entry, and the
strictly-descending invariant holds on the resulting list. -/
theorem C7_renumber_preserves_order {st : CState} {t : Nat} {st' : CState}
    (h : toHead st t true = .ok st')
    (hover : st.sN = st.sEnd)
    (hcap : (st.cache.length : Int) < st.sEnd - st.sStart)
    (hsorted : SortedDesc st.items st.cache)
    (hsno : ∀ u ∈ st.cache, (st.item u).sno < st.sN)
    (ht : t ∈ st.cache)
    (hne : st.cache.head? ≠ some t) :
    SortedDesc st'.items st'.cache ∧
    st'.cache.head? = some t ∧
    (∀ u, u ∈ st'.cache ↔ u = t ∨ u ∈ st.cache) ∧
    (∀ u ∈ st.cache, u ≠ t → (st'.item u).sno < (st'.item t).sno) ∧
    (st'.item t).sno = st.sStart + st.cache.length ∧
    (∀ (j : Nat) (hj : j < st.cache.length), st.cache.get ⟨j, hj⟩ ≠ t →
      (st'.item (st.cache.get ⟨j, hj⟩)).sno =
        st.sStart + ((st.cache.length - 1 - j : Nat) : Int)) := by
  obtain ⟨hs1, -, -, -, -, -, -, -, -, -, hs11, hs12, -⟩ :=
    toHead_ok h hsorted hsno (fun hc => Bool.noConfusion hc)
  have hcap1 : ∀ j : Nat, j < st.cache.reverse.length → st.sStart + (j : Int) ≠ st.sEnd := by
    intro j hj he
    rw [List.length_reverse] at hj
    omega
  obtain ⟨items', hren⟩ := renumberRev_total st.items st.cache.reverse st.sStart hcap1
  rw [List.length_reverse] at hren
  obtain ⟨-, -, r3⟩ := renumber_cache_pos hren hsorted.nodup
  have hn1 : ¬st.sStart + ((st.cache.length : Nat) : Int) = st.sEnd := by
    intro he
    omega
  have hassign : assignSno st t = .ok
      { st with
        items := ainsert t
          { itemOf items' t with sno := st.sStart + st.cache.length } items',
        sN := st.sStart + st.cache.length + 1 } := by
    simp only [assignSno, seriesNext, if_pos hover, hren, if_neg hn1]
  rw [toHead, indexOfItem_eq _ _ hsorted] at h
  simp only [if_true] at h
  obtain ⟨h0, hnth⟩ := jsIndexOf_mem ht
  have hz : jsIndexOf st.cache t ≠ 0 := by
    intro h00
    rw [h00] at hnth
    have hh : st.cache.get? 0 = some t := (jsNth_eq_some.mp hnth).2
    rw [List.get?_zero] at hh
    exact hne hh
  rw [if_neg hz] at h
  simp only [hassign] at h
  rw [if_pos (show jsIndexOf st.cache t > -1 by omega)] at h
  have hX := Except.ok.inj h
  have hitems : st'.items = ainsert t
      { itemOf items' t with sno := st.sStart + st.cache.length } items' := by
    rw [← hX]
  have hitem : ∀ u, st'.item u = itemOf
      (ainsert t { itemOf items' t with sno := st.sStart + st.cache.length } items') u := by
    intro u
    simp only [CState.item, hitems]
  have hitem_t : (st'.item t).sno = st.sStart + st.cache.length := by
    rw [hitem t, itemOf_ainsert_self]
  have hitem_ne : ∀ u, u ≠ t → st'.item u = itemOf items' u := by
    intro u hu
    rw [hitem u, itemOf_ainsert_ne _ _ hu]
  refine ⟨hs1, hs11, hs12, ?_, hitem_t, ?_⟩
  · intro u hu hut
    rw [hitem_t]
    obtain ⟨⟨j, hjlt⟩, hget⟩ := List.mem_iff_get.mp hu
    have hj3 := r3 j hjlt
    rw [hget] at hj3
    rw [hitem_ne u hut, hj3]
    show st.sStart + ((st.cache.length - 1 - j : Nat) : Int) <
      st.sStart + (st.cache.length : Int)
    omega
  · intro j hj hne'
    rw [hitem_ne _ hne', r3 j hj]

/-- C8: the aggregate-size invariant — in every state reachable from a
fresh cache through completed add, get, remove and prune steps, the
recorded `totalSize` equals the sum of the sizes of the entries on the
list (tombstoned entries carry size 0, so this is the sum over live
entries). -/
theorem C8_total_size_invariant {bound : Item → Int → Bool} {ops : List Op}
    {sStart sEnd : Int} {st' : CState}
    (h : runOps bound ops (initState sStart sEnd) = .ok st') :
    st'.totalSize = cacheSizes st' :=
  (runOps_inv ops (initState sStart sEnd) st' (inv_init sStart sEnd) h).sizeEq

/-- C9: group removal — once the deferred pass of `remove` with an
id-less key has run, `has` is false for every id under that group (not
just the previously registered ones) and the group is absent from the
group list `inspect` reports. -/
theorem C9_group_removal (st : CState) (g : Nat) :
    (∀ kid : Option Nat, hasKey (removeStep st ⟨none, g⟩) ⟨kid, g⟩ = false) ∧
    g ∉ (inspect (removeStep st ⟨none, g⟩)).groups := by
  have hgr : (removeStep st ⟨none, g⟩).groups = adelete g st.groups := rfl
  constructor
  · intro kid
    simp only [hasKey, hgr, alookup_adelete_self]
  · intro hmem
    rw [show (inspect (removeStep st ⟨none, g⟩)).groups =
      keysOf (adelete g st.groups) from rfl] at hmem
    exact ((mem_keysOf_adelete st.groups).mp hmem).2 rfl

/-- C10: promoting the entry already at the head is a no-op on the
ordering state — `get` of the most-recently-used key returns its data,
leaves the list, the series counter and every entry's series number
unchanged (so it consumes no series value and cannot trigger overflow),
and touches nothing but the entry's access time. -/
theorem C10_head_promotion_noop {now : Int} {st : CState} {k : JKey} {i : Nat}
    {tbl : GroupTable}
    (hsorted : SortedDesc st.items st.cache)
    (hg : alookup k.group st.groups = some tbl)
    (hk : alookup k.id tbl = some i)
    (hhead : st.cache.head? = some i) :
    ∃ st', getOp now st k = .ok (st', (st.item i).data) ∧
      st'.cache = st.cache ∧ st'.sN = st.sN ∧
      (∀ u, (st'.item u).sno = (st.item u).sno) ∧
      (∀ u, u ≠ i → st'.item u = st.item u) := by
  refine ⟨st.setItem i { st.item i with time := now },
    getOp_at_head hsorted hg hk hhead, rfl, rfl, ?_, ?_⟩
  · intro u
    by_cases hu : u = i
    · subst hu
      show (itemOf (ainsert u { st.item u with time := now } st.items) u).sno = _
      rw [itemOf_ainsert_self]
    · show (itemOf (ainsert i { st.item i with time := now } st.items) u).sno = _
      rw [itemOf_ainsert_ne _ _ hu]
      rfl
  · intro u hu
    show itemOf (ainsert i { st.item i with time := now } st.items) u = _
    rw [itemOf_ainsert_ne _ _ hu]
    rfl

/-! ### Concrete instances for the claims with hypotheses -/

/-- A 21-entry heap with strictly descending series numbers, long enough
to exercise the binary-search path of `indexOfItem`. -/
def exItems : List (Nat × Item) :=
  (List.range 21).map fun j =>
    (j, { key := ⟨some j, 1⟩, data := .num 1, size := 1, sno := (100 : Int) - j, time := 0 })

def exCache : List Nat := List.range 21

theorem exCache_sorted : SortedDesc exItems exCache := by
  unfold SortedDesc
  decide

/-- A three-entry cache whose series counter sits exactly at the overflow
point of the range `[0, 5)`. -/
def ex7 : CState :=
  { items := [(0, ⟨⟨some 1, 1⟩, .str "a", 1, 2, 0⟩), (1, ⟨⟨some 2, 1⟩, .str "b", 1, 3, 0⟩),
              (2, ⟨⟨some 3, 1⟩, .str "c", 1, 4, 0⟩)],
    nextId := 3, groups := [(1, [(some 1, 0), (some 2, 1), (some 3, 2)])],
    cache := [2, 1, 0], totalSize := 3, sN := 5, sStart := 0, sEnd := 5 }

/-- The state `toHead ex7 1 true` produces: the list was renumbered
(tail-to-head: 0, 1, 2), entry 1 drew the next number 3 and moved to the
head. -/
def ex7' : CState :=
  { items := [(0, ⟨⟨some 1, 1⟩, .str "a", 1, 0, 0⟩), (1, ⟨⟨some 2, 1⟩, .str "b", 1, 3, 0⟩),
              (2, ⟨⟨some 3, 1⟩, .str "c", 1, 2, 0⟩)],
    nextId := 3, groups := [(1, [(some 1, 0), (some 2, 1), (some 3, 2)])],
    cache := [1, 2, 0], totalSize := 3, sN := 4, sStart := 0, sEnd := 5 }

theorem ex7_sorted : SortedDesc ex7.items ex7.cache := by
  unfold SortedDesc ex7
  decide

/-- A one-entry cache whose entry is at the head. -/
def ex10 : CState :=
  { items := [(0, ⟨⟨some 1, 1⟩, .str "d", 2, 0, 0⟩)], nextId := 1,
    groups := [(1, [(some 1, 0)])], cache := [0], totalSize := 2,
    sN := 1, sStart := 0, sEnd := 100 }

theorem ex10_sorted : SortedDesc ex10.items ex10.cache := by
  unfold SortedDesc ex10
  decide

/-- C1 witness: the one-oversized-entry state from the counterexample run,
whose prune pass empties the cache, ends at `totalSize = 0 ≤ 3`. -/
theorem C1_prune_bounds_total_witness :
    ({ items := [(0, ⟨⟨some 1, 1⟩, .str "x", 5, 0, 0⟩)], nextId := 1, groups := [],
       cache := [], totalSize := 0, sN := 1, sStart := 0, sEnd := 100 } : CState).totalSize
      ≤ 3 :=
  @C1_prune_bounds_total 3
    { items := [(0, ⟨⟨some 1, 1⟩, .str "x", 5, 0, 0⟩)], nextId := 1,
      groups := [(1, [(some 1, 0)])], cache := [0], totalSize := 5, sN := 1,
      sStart := 0, sEnd := 100 }
    { items := [(0, ⟨⟨some 1, 1⟩, .str "x", 5, 0, 0⟩)], nextId := 1, groups := [],
      cache := [], totalSize := 0, sN := 1, sStart := 0, sEnd := 100 }
    (by rfl)
    (@runOps_inv (maxSizeBound 3) [.add 0 (.str "x") ⟨some 1, 1⟩ 5] (initState 0 100)
      { items := [(0, ⟨⟨some 1, 1⟩, .str "x", 5, 0, 0⟩)], nextId := 1,
        groups := [(1, [(some 1, 0)])], cache := [0], totalSize := 5, sN := 1,
        sStart := 0, sEnd := 100 }
      (inv_init 0 100) (by rfl))
    (by decide)

/-- C3 witness: adding the truthy value 7 from an empty cache makes `has`
report its truthiness, i.e. `true`. -/
theorem C3_has_after_add_witness :
    hasKey
      { items := [(0, ⟨⟨some 1, 1⟩, .num 7, 2, 0, 0⟩)], nextId := 1,
        groups := [(1, [(some 1, 0)])], cache := [0], totalSize := 2, sN := 1,
        sStart := 0, sEnd := 100 }
      ⟨some 1, 1⟩ = (JSValue.num 7).truthy :=
  @C3_has_after_add 0 (initState 0 100) (.num 7) ⟨some 1, 1⟩ 2
    { items := [(0, ⟨⟨some 1, 1⟩, .num 7, 2, 0, 0⟩)], nextId := 1,
      groups := [(1, [(some 1, 0)])], cache := [0], totalSize := 2, sN := 1,
      sStart := 0, sEnd := 100 }
    0 (by rfl) (inv_init 0 100)

/-- C4 witness: from the three-entry state sitting exactly at the overflow
point of the range `[0, 5)` (capacity 3 < 5), both `get` and `add`
complete without an error. -/
theorem C4_overflow_absorbed_under_capacity_witness :
    (∃ r, getOp 0 ex7 ⟨some 1, 1⟩ = .ok r) ∧
    ∀ (data : JSValue) (size : Int), ∃ r, addOp 0 ex7 data ⟨some 1, 1⟩ size = .ok r :=
  @C4_overflow_absorbed_under_capacity 0 ex7 ⟨some 1, 1⟩ (by decide)

/-- C5 witness: the 21-entry descending list satisfies the sorting
hypothesis, and locating entry 5 on the binary-search path is correct. -/
theorem C5_locate_correct_witness :
    SortedDesc exItems exCache ∧
    ((5 ∈ exCache → jsNth exCache (indexOfItem exItems exCache 5) = some 5) ∧
     (5 ∉ exCache → indexOfItem exItems exCache 5 = -1)) :=
  ⟨exCache_sorted, C5_locate_correct 5 exCache_sorted⟩

/-- C6 witness: adding `"v"` to an empty cache and reading the key back
returns `"v"`. -/
theorem C6_round_trip_witness :
    ∃ st₂, getOp 5
      { items := [(0, ⟨⟨some 1, 1⟩, .str "v", 2, 0, 0⟩)], nextId := 1,
        groups := [(1, [(some 1, 0)])], cache := [0], totalSize := 2, sN := 1,
        sStart := 0, sEnd := 100 }
      ⟨some 1, 1⟩ = .ok (st₂, .str "v") :=
  @C6_round_trip 0 (initState 0 100) (.str "v") ⟨some 1, 1⟩ 2
    { items := [(0, ⟨⟨some 1, 1⟩, .str "v", 2, 0, 0⟩)], nextId := 1,
      groups := [(1, [(some 1, 0)])], cache := [0], totalSize := 2, sN := 1,
      sStart := 0, sEnd := 100 }
    0 5 (by rfl) (inv_init 0 100)

/-- C7 witness: promoting entry 1 of the three-entry overflow-point state
renumbers [tail, middle, head] to [0, 1, 2] positionally, gives the
promoted entry 3, and moves it to the head of a still-descending list. -/
theorem C7_renumber_preserves_order_witness :
    SortedDesc ex7'.items ex7'.cache ∧
    ex7'.cache.head? = some 1 ∧
    (∀ u, u ∈ ex7'.cache ↔ u = 1 ∨ u ∈ ex7.cache) ∧
    (∀ u ∈ ex7.cache, u ≠ 1 → (ex7'.item u).sno < (ex7'.item 1).sno) ∧
    (ex7'.item 1).sno = ex7.sStart + ex7.cache.length ∧
    (∀ (j : Nat) (hj : j < ex7.cache.length), ex7.cache.get ⟨j, hj⟩ ≠ 1 →
      (ex7'.item (ex7.cache.get ⟨j, hj⟩)).sno =
        ex7.sStart + ((ex7.cache.length - 1 - j : Nat) : Int)) :=
  @C7_renumber_preserves_order ex7 1 ex7' (by rfl) rfl (by decide) ex7_sorted
    (by decide) (by decide) (by decide)

/-- C8 witness: an add-add-remove-prune run ends with `totalSize = 7`,
which is the sum of the sizes on its list (7 for the live entry, 0 for the
tombstone). -/
theorem C8_total_size_invariant_witness :
    ({ items := [(0, ⟨⟨some 1, 1⟩, .undef, 0, 0, 0⟩), (1, ⟨⟨some 1, 2⟩, .str "b", 7, 1, 0⟩)],
       nextId := 2, groups := [(2, [(some 1, 1)])], cache := [1, 0], totalSize := 7,
       sN := 2, sStart := 0, sEnd := 100 } : CState).totalSize =
      cacheSizes
        { items := [(0, ⟨⟨some 1, 1⟩, .undef, 0, 0, 0⟩), (1, ⟨⟨some 1, 2⟩, .str "b", 7, 1, 0⟩)],
          nextId := 2, groups := [(2, [(some 1, 1)])], cache := [1, 0], totalSize := 7,
          sN := 2, sStart := 0, sEnd := 100 } :=
  @C8_total_size_invariant (maxSizeBound 100)
    [.add 0 (.str "a") ⟨some 1, 1⟩ 5, .add 0 (.str "b") ⟨some 1, 2⟩ 7,
     .removeP ⟨some 1, 1⟩, .pruneP]
    0 100
    { items := [(0, ⟨⟨some 1, 1⟩, .undef, 0, 0, 0⟩), (1, ⟨⟨some 1, 2⟩, .str "b", 7, 1, 0⟩)],
      nextId := 2, groups := [(2, [(some 1, 1)])], cache := [1, 0], totalSize := 7,
      sN := 2, sStart := 0, sEnd := 100 }
    (by rfl)

/-- C10 witness: reading the head entry of the one-entry cache returns its
data and leaves the ordering state alone. -/
theorem C10_head_promotion_noop_witness :
    ∃ st', getOp 9 ex10 ⟨some 1, 1⟩ = .ok (st', (ex10.item 0).data) ∧
      st'.cache = ex10.cache ∧ st'.sN = ex10.sN ∧
      (∀ u, (st'.item u).sno = (ex10.item u).sno) ∧
      (∀ u, u ≠ 0 → st'.item u = ex10.item u) :=
  @C10_head_promotion_noop 9 ex10 ⟨some 1, 1⟩ 0 [(some 1, 0)] ex10_sorted rfl rfl rfl

end SemoLRU
